import Mathlib

/-!
# A verification model of the `json` library (src/json_parser.h)

This file gives a shallow embedding of the copy-on-write string
(`json::cow_string`), the value model (`json::node` / `json::Value`), the
recursive-descent reader (`json::json_reader`) and the writer
(`json::json_writer`), together with theorems checking the library's
documented properties against the code.

Modelling conventions:
* bytes are Lean `Char`s (the inputs of interest are byte-ranged; the C++
  code stores plain `char`s and compares them as unsigned bytes);
* the reader works over a fixed source list and an explicit cursor `pos`,
  exactly like the C++ member functions; `row`/`column` counters are omitted
  because they only feed the text of error messages, never control flow;
* `std::int64_t` becomes `Int` with explicit `2^63` range checks where the
  code's numeric conversion can fail;
* `double` values are carried as exact rationals (`ℚ`); the C++
  `std::from_chars` rounds its exact decimal value to the nearest `double`,
  which is exact for every float observed by a theorem in this file (`2.5`,
  `1e10`);
* thrown `json_exception`s become `Except.error` results;
* the mutual recursion between `parse_value`, `parse_array` and
  `parse_object` is driven by a fuel parameter; `Err.outOfFuel` is an
  artifact of the embedding and is proved unreachable wherever a theorem
  needs it.
-/

namespace JsonModel

/-- The terminator byte: block allocations in `cow_string` end in `'\0'`,
and (faithful to that layout) reading the cursor exactly at `src.size()`
yields the terminator. -/
def NUL : Char := Char.ofNat 0

/-- `src[pos]`: total read of the byte at `pos`; index `length` reads the
terminator byte of the underlying block. -/
def peek (src : List Char) (pos : Nat) : Char := src.getD pos NUL

/-- `std::isspace` (C locale): space, tab, newline, vertical tab, form feed,
carriage return. -/
def isSpaceB (c : Char) : Bool :=
  c = ' ' || c = '\t' || c = '\n' || c = Char.ofNat 11 || c = Char.ofNat 12 || c = Char.ofNat 13

/-- Characters accepted by the number scanner in `parse_number`:
`std::isdigit(c) || c == 'e' || c == '.'`. -/
def isNumChar (c : Char) : Bool := c.isDigit || c = 'e' || c = '.'

/-- Length of the maximal whitespace prefix; `skip_whitespace` moves the
cursor past exactly this many bytes. -/
def wsRun : List Char → Nat
  | [] => 0
  | c :: t => if isSpaceB c then wsRun t + 1 else 0

/-- `json_reader::skip_whitespace`: advance `pos` while the current byte is
whitespace (the `row`/`column` updates only feed error text and are
omitted). -/
def skip_whitespace (src : List Char) (pos : Nat) : Nat := pos + wsRun (src.drop pos)

/-- Length of the maximal prefix of digit/`e`/`.` bytes; the scanning loop
of `parse_number` stops after exactly this many bytes. -/
def numRun : List Char → Nat
  | [] => 0
  | c :: t => if isNumChar c then numRun t + 1 else 0

/-- First index (relative) holding `c`, as `cow_string::find` computes it. -/
def findIdxC (c : Char) : List Char → Option Nat
  | [] => none
  | x :: t => if x = c then some 0 else (findIdxC c t).map (· + 1)

/-- `cow_string::find(c, pos)`: first index `i ∈ [pos, length)` with
`src[i] = c`, else `npos` (modelled as `none`). -/
def strFind (src : List Char) (c : Char) (pos : Nat) : Option Nat :=
  (findIdxC c (src.drop pos)).map (pos + ·)

/-- Byte-wise strict order of `std::less<cow_string>` /
`cow_string::operator<`: compare the common prefix as unsigned bytes
(`char_traits<char>::compare`), then break ties by size.  The stepwise
recursion below performs exactly that comparison. -/
def ltB : List Char → List Char → Bool
  | [], [] => false
  | [], _ :: _ => true
  | _ :: _, [] => false
  | a :: as, b :: bs =>
    if a.toNat < b.toNat then true
    else if b.toNat < a.toNat then false
    else ltB as bs

/-- The JSON value model: `using Value = std::variant<Null, Bool, Integer,
Float, String, Array, Object>`.  `Object` is `std::map<String, node>`,
modelled as an association list kept sorted by `ltB` with unique keys (the
ordered-map invariant); `String` is a `cow_string`, observed through the
byte list of its window. -/
inductive Value where
  | null
  | bool (b : Bool)
  | integer (n : Int)
  | float (q : ℚ)
  | str (s : List Char)
  | arr (elems : List Value)
  | obj (entries : List (List Char × Value))
deriving Repr

/-- The single error kind (`json_exception`), refined by the site that
throws it; payloads record the offending byte/position used in the message
text.  `outOfFuel` is an embedding artifact of the fuel-indexed recursion,
never a behavior of the code. -/
inductive Err where
  | illegalToken (c : Char) (pos : Nat)
  | expectedQuote (pos : Nat) (c : Char)
  | expectedColon (pos : Nat) (c : Char)
  | keyMustBeString (pos : Nat)
  | invalidToken (c : Char)
  | unexpectedEnd
  | outOfFuel
deriving DecidableEq, Repr

/-- `std::map::operator[]` followed by assignment (the insertion step of
`parse_object`): ordered insert keyed by `ltB`; when an equivalent key is
already present the stored key is kept and only the mapped value changes
(last write wins). -/
def objInsert (m : List (List Char × Value)) (k : List Char) (v : Value) :
    List (List Char × Value) :=
  match m with
  | [] => [(k, v)]
  | (k', v') :: t =>
    if ltB k k' then (k, v) :: (k', v') :: t
    else if ltB k' k then (k', v') :: objInsert t k v
    else (k', v) :: t

/-- Lookup in the object map (by key equality; for the total order `ltB`,
key equivalence coincides with equality). -/
def objLookup (m : List (List Char × Value)) (k : List Char) : Option Value :=
  (m.find? (fun e => e.1 = k)).map Prod.snd

/-- Numeric value of a digit run, most significant first (the usual
positional read-back; used to state what `std::from_chars` computes). -/
def digitsVal (l : List Char) : Nat :=
  l.foldl (fun a c => 10 * a + (c.toNat - 48)) 0

/-- `std::from_chars` for `std::int64_t` as `parse_number` uses it: an
optional minus sign, then a non-empty maximal digit run (the tail after the
run is ignored — the call site only checks `res.ec`); no digits is
`invalid_argument`, a value outside `int64_t` is `result_out_of_range`,
both modelled as `none`. -/
def fromCharsInt (s : List Char) : Option Int :=
  let neg := s.head? = some '-'
  let s1 := if neg then s.tail else s
  let ds := s1.takeWhile (·.isDigit)
  if ds.isEmpty then none
  else
    let v : Int := if neg then -(digitsVal ds : Int) else (digitsVal ds : Int)
    if v < -(Int.ofNat (2 ^ 63 : Nat)) ∨ Int.ofNat ((2 ^ 63 - 1 : Nat)) < v then none
    else some v

/-- The largest finite `double`, `(2^53 - 1) * 2^971`. -/
def maxDouble : ℚ := mkRat (Int.ofNat ((2 ^ 53 - 1) * 2 ^ 971 : Nat)) 1

/-- `std::from_chars` for `double` (`chars_format::general`) as
`parse_number` uses it: an optional minus sign; a significand of digits
with an optional decimal point and at least one digit; an optional
exponent `e`/`E` with optional sign and digits, consumed only when
well-formed; the longest valid prefix is converted and the remainder
ignored (the call site only checks `res.ec`).  The value is kept as an
exact rational; the C++ call rounds it to the nearest `double` (exact for
every float a theorem in this file observes) and reports out-of-range
beyond the finite `double` range. -/
def fromCharsFloat (s : List Char) : Option ℚ :=
  let neg := s.head? = some '-'
  let s1 := if neg then s.tail else s
  let ds1 := s1.takeWhile (·.isDigit)
  let r1 := s1.drop ds1.length
  let hasPoint := r1.head? = some '.'
  let ds2 := if hasPoint then r1.tail.takeWhile (·.isDigit) else []
  let r2 := if hasPoint then r1.tail.drop ds2.length else r1
  if ds1.isEmpty ∧ ds2.isEmpty then none
  else
    let expPart : Int :=
      if r2.head? = some 'e' ∨ r2.head? = some 'E' then
        let t := r2.tail
        let eneg := t.head? = some '-'
        let t1 := if t.head? = some '-' ∨ t.head? = some '+' then t.tail else t
        let eds := t1.takeWhile (·.isDigit)
        if eds.isEmpty then 0
        else if eneg then -(digitsVal eds : Int) else (digitsVal eds : Int)
      else 0
    let scaleExp : Int := expPart - (ds2.length : Int)
    let mant : Int := (digitsVal (ds1 ++ ds2) : Int)
    let signedMant : Int := if neg then -mant else mant
    let q : ℚ :=
      if 0 ≤ scaleExp then mkRat (signedMant * Int.ofNat ((10 : Nat) ^ scaleExp.toNat)) 1
      else mkRat signedMant ((10 : Nat) ^ (-scaleExp).toNat)
    if q < -maxDouble ∨ maxDouble < q then none else some q

/-- The float test of `parse_number` (`is_float`): the scanned token
contains `'.'` or `'e'` (`find != npos`). -/
def hasDotE (tok : List Char) : Bool := tok.contains '.' || tok.contains 'e'

/-- `json_reader::parse_null`: `src.substr(pos, 4) == "null"`.  The C++
comparison checks the 4-byte window against the literal; with fewer than 4
bytes left the window runs into the terminator and the comparison fails,
which is exactly what comparing the (then shorter) `take 4` list does. -/
def parse_null (src : List Char) (pos : Nat) : Except Err (Value × Nat) :=
  if (src.drop pos).take 4 = "null".toList then .ok (.null, pos + 4)
  else .error (.illegalToken (peek src pos) pos)

/-- `json_reader::parse_true`. -/
def parse_true (src : List Char) (pos : Nat) : Except Err (Value × Nat) :=
  if (src.drop pos).take 4 = "true".toList then .ok (.bool true, pos + 4)
  else .error (.illegalToken (peek src pos) pos)

/-- `json_reader::parse_false` (5-byte literal). -/
def parse_false (src : List Char) (pos : Nat) : Except Err (Value × Nat) :=
  if (src.drop pos).take 5 = "false".toList then .ok (.bool false, pos + 5)
  else .error (.illegalToken (peek src pos) pos)

/-- `json_reader::parse_string`: skip the opening quote, find the next `'"'`
with no escape processing, slice the window `[pos, end)` out of the source
(observed here as its byte list) and move past the closing quote. -/
def parse_string (src : List Char) (pos : Nat) : Except Err (Value × Nat) :=
  let pos := pos + 1
  match strFind src '"' pos with
  | none => .error (.expectedQuote pos (peek src pos))
  | some e => .ok (.str ((src.drop pos).take (e - pos)), e + 1)

/-- `json_reader::parse_number`: scan the maximal digit/`e`/`.` run, move
the cursor past it, classify by `is_float`, convert with `std::from_chars`
and throw on a conversion failure (the thrown message reads `src[pos]`
after `pos = end`, hence `peek src e`). -/
def parse_number (src : List Char) (pos : Nat) : Except Err (Value × Nat) :=
  let run := numRun (src.drop pos)
  let number := (src.drop pos).take run
  let e := pos + run
  if hasDotE number then
    match fromCharsFloat number with
    | some v => .ok (.float v, e)
    | none => .error (.invalidToken (peek src e))
  else
    match fromCharsInt number with
    | some v => .ok (.integer v, e)
    | none => .error (.invalidToken (peek src e))

/-- Control points of the reader's mutual recursion: `value` is a
`parse_value` call; `arrayBody`/`objectBody` are the `while` loops of
`parse_array`/`parse_object` with their accumulated container. -/
inductive Frame where
  | value (pos : Nat)
  | arrayBody (pos : Nat) (acc : List Value)
  | objectBody (pos : Nat) (acc : List (List Char × Value))

/-- One fuel-indexed engine for the mutually recursive
`parse_value` / `parse_array` / `parse_object`.

* `.value pos`: `parse_value` — skip whitespace, fail with
  `Unexpected end of input.` at the end, else dispatch on the current byte;
  `'['` and `'{'` consume the bracket, build the empty container and skip
  whitespace before entering the loop, exactly as the first three lines of
  `parse_array` / `parse_object` do.
* `.arrayBody pos acc`: the loop of `parse_array` — while the cursor is in
  range and not at `']'`: parse a value, optionally consume one `','`, skip
  whitespace, push the value; afterwards step past the (possibly absent)
  closing bracket and return the array.
* `.objectBody pos acc`: the loop of `parse_object` — while in range and
  not at `'}'`: parse a value that must be a `String` key, require `':'`,
  parse the value, optionally consume one `','`, skip whitespace, insert
  key→value; afterwards step past the closer and return the object. -/
def step (src : List Char) : Nat → Frame → Except Err (Value × Nat)
  | 0, _ => .error .outOfFuel
  | fuel + 1, .value pos0 =>
    let pos := skip_whitespace src pos0
    if src.length ≤ pos then .error .unexpectedEnd
    else
      match peek src pos with
      | 'n' => parse_null src pos
      | 't' => parse_true src pos
      | 'f' => parse_false src pos
      | '"' => parse_string src pos
      | '[' => step src fuel (.arrayBody (skip_whitespace src (pos + 1)) [])
      | '{' => step src fuel (.objectBody (skip_whitespace src (pos + 1)) [])
      | _ => parse_number src pos
  | fuel + 1, .arrayBody pos acc =>
    if pos < src.length ∧ peek src pos ≠ ']' then
      match step src fuel (.value pos) with
      | .error e => .error e
      | .ok (v, p1) =>
        let p2 := if p1 < src.length ∧ peek src p1 = ',' then p1 + 1 else p1
        let p3 := skip_whitespace src p2
        step src fuel (.arrayBody p3 (acc ++ [v]))
    else .ok (.arr acc, pos + 1)
  | fuel + 1, .objectBody pos acc =>
    if pos < src.length ∧ peek src pos ≠ '}' then
      match step src fuel (.value pos) with
      | .error e => .error e
      | .ok (k, p1) =>
        match k with
        | .str key =>
          if p1 < src.length ∧ peek src p1 = ':' then
            match step src fuel (.value (p1 + 1)) with
            | .error e => .error e
            | .ok (v, p2) =>
              let p3 := if p2 < src.length ∧ peek src p2 = ',' then p2 + 1 else p2
              let p4 := skip_whitespace src p3
              step src fuel (.objectBody p4 (objInsert acc key v))
          else .error (.expectedColon p1 (peek src p1))
        | _ => .error (.keyMustBeString p1)
    else .ok (.obj acc, pos + 1)

/-- `json_reader::parse_value` at a given cursor and fuel. -/
def parse_value (fuel : Nat) (src : List Char) (pos : Nat) : Except Err (Value × Nat) :=
  step src fuel (.value pos)

/-- `json_reader::parse`: reset the cursor and parse one value as the
document root (trailing bytes are not inspected).  The fuel
`2 * src.length + 4` is an embedding bound: every recursive call of the
reader either descends past a consumed byte or iterates a loop whose
successful body consumes at least one byte, so the bound is never reached
on the runs any theorem below observes. -/
def parse (src : List Char) : Except Err Value :=
  (parse_value (2 * src.length + 4) src 0).map Prod.fst

/-! ## The writer (`json_writer::write`) -/

/-- The decimal digit character for `d < 10`. -/
def digitCh (d : Nat) : Char := Char.ofNat (48 + d)

/-- Decimal text of a natural number, most significant digit first, no
leading zeros, `"0"` for zero — the text `operator<<` emits for a
non-negative integer. -/
def natDecimal (n : Nat) : List Char :=
  if n = 0 then ['0'] else ((Nat.digits 10 n).map digitCh).reverse

/-- Decimal text of an `Integer` (`std::int64_t`) as `operator<<` prints
it: an optional minus sign and the decimal digits. -/
def intDecimal (n : Int) : List Char :=
  if n < 0 then '-' :: natDecimal (-n).toNat else natDecimal n.toNat

/-! `json_writer::write`, recursively serializing a value:
* `Null` → `null`; `Bool` → `true`/`false`; `Integer` → decimal text;
* `Float` → the stream's default `double` text.  That formatting
  (six significant digits, `e`-style exponents) is floating-point display
  behavior outside this embedding; the placeholder below is never relied
  upon — every theorem touching `write` excludes `Float` leaves;
* `String` → `'"' << obj.c_str() << '"'`: `c_str` hands the stream a
  pointer it prints up to the first `'\0'`, hence the `takeWhile`;
* `Array` → `[`, the elements comma-separated with no trailing comma, `]`;
* `Object` → `{`, then for each entry in map order the key (written via
  `operator<<(ostream, cow_string)`, which emits all `size()` bytes), a
  `":`-separator and the value, comma-separated, then `}`. -/
mutual
def write : Value → List Char
  | .null => "null".toList
  | .bool b => if b then "true".toList else "false".toList
  | .integer n => intDecimal n
  | .float _ => "0".toList
  | .str s => '"' :: (s.takeWhile (· ≠ NUL) ++ ['"'])
  | .arr xs => '[' :: (writeElems xs ++ [']'])
  | .obj m => '{' :: (writeEntries m ++ ['}'])
def writeElems : List Value → List Char
  | [] => []
  | [x] => write x
  | x :: y :: t => write x ++ ',' :: writeElems (y :: t)
def writeEntries : List (List Char × Value) → List Char
  | [] => []
  | [(k, v)] => '"' :: (k ++ '"' :: ':' :: write v)
  | (k, v) :: e :: t => ('"' :: (k ++ '"' :: ':' :: write v)) ++ ',' :: writeEntries (e :: t)
end

/-! ## Benign trees

The round-trip guarantee cannot hold for every C++ `Value` tree: the
reader's number grammar has no `'-'`, strings are sliced to the first
`'"'` with no escapes and streamed up to the first `'\0'`, and the
stream's default `double` formatting does not read back.  `benign` is the
class of trees on which the writer's output re-parses: integers are
non-negative (and in `int64_t` range, automatic in C++), no `Float`
leaves, string values contain neither `'"'` nor `'\0'`, object keys
contain no `'"'`, and object entry lists satisfy the `std::map` invariant
(strictly sorted by `ltB`, hence unique keys — automatic in C++). -/
mutual
def benign : Value → Bool
  | .null => true
  | .bool _ => true
  | .integer n => decide (0 ≤ n) && decide (n < Int.ofNat (2 ^ 63 : Nat))
  | .float _ => false
  | .str s => s.all (fun c => c ≠ '"' && c ≠ NUL)
  | .arr xs => benignElems xs
  | .obj m => benignEntries m
def benignElems : List Value → Bool
  | [] => true
  | x :: t => benign x && benignElems t
def benignEntries : List (List Char × Value) → Bool
  | [] => true
  | (k, v) :: t =>
    k.all (· ≠ '"') && benign v && t.all (fun e => ltB k e.1) && benignEntries t
end

/-! ## The copy-on-write string (`json::cow_string`)

A `cow_string` is `(storage, offset, length)` where `storage` is a
`shared_ptr<char[]>` block.  The heap of blocks is explicit here: a
`CowHeap` holds every allocated block (blocks stay at their index — a
block another slice still references is never moved) together with each
block's current `use_count`.  A slice names its block by index.  Blocks
store the character data; the allocation additionally carries a trailing
`'\0'` terminator, so the data length below is the `view.size()` the block
was built from. -/

/-- The explicit heap: `blocks[i]` is the data of block `i`,
`rc[i]` its `shared_ptr` use count. -/
structure CowHeap where
  blocks : List (List Char)
  rc : List Nat
deriving DecidableEq, Repr

/-- A `cow_string` value: block index, view offset, view length. -/
structure cow_string where
  sid : Nat
  offset : Nat
  length : Nat
deriving DecidableEq, Repr

namespace cow_string

/-- The data of the block a slice references. -/
def blockAt (h : CowHeap) (i : Nat) : List Char := h.blocks.getD i []

/-- The `use_count` of block `i`. -/
def rcAt (h : CowHeap) (i : Nat) : Nat := h.rc.getD i 0

/-- The constructor `cow_string(std::string_view)`: allocate a fresh block
of `view.size() + 1` bytes (data plus terminator), copy the bytes,
`use_count = 1`, `offset = 0`, `length = view.size()`. -/
def ofView (view : List Char) (h : CowHeap) : cow_string × CowHeap :=
  (⟨h.blocks.length, 0, view.length⟩, ⟨h.blocks ++ [view], h.rc ++ [1]⟩)

/-- The defaulted copy constructor: the new slice shares the block
(`shared_ptr` copy bumps the use count); offset and length are copied. -/
def copyCtor (s : cow_string) (h : CowHeap) : cow_string × CowHeap :=
  (s, ⟨h.blocks, h.rc.set s.sid (rcAt h s.sid + 1)⟩)

/-- `cow_string::substr(offset, count)`: copy-construct (sharing the block,
bumping its use count), then shift the offset and overwrite the length —
no byte is copied and no block is allocated, whatever the sharing count. -/
def substr (s : cow_string) (off cnt : Nat) (h : CowHeap) : cow_string × CowHeap :=
  (⟨s.sid, s.offset + off, cnt⟩, ⟨h.blocks, h.rc.set s.sid (rcAt h s.sid + 1)⟩)

/-- The indexed read (`operator[] const` / `char_proxy::operator char`):
the byte at `storage[offset + index]`.  An out-of-window read returns the
byte actually stored there; past the block it is junk (modelled as `NUL`,
the terminator that follows the data). -/
def read (h : CowHeap) (s : cow_string) (i : Nat) : Char :=
  (blockAt h s.sid).getD (s.offset + i) NUL

/-- The private `cow_string::copy()`: allocate a fresh block holding the
`length` bytes of this slice's window plus a terminator, release the old
block (`storage = new_data` drops one reference) and hold the new one with
`use_count = 1`; the offset resets to `0`. -/
def copy (s : cow_string) (h : CowHeap) : cow_string × CowHeap :=
  let data := ((blockAt h s.sid).drop s.offset).take s.length
  (⟨h.blocks.length, 0, s.length⟩,
   ⟨h.blocks ++ [data], (h.rc.set s.sid (rcAt h s.sid - 1)) ++ [1]⟩)

/-- Overwrite one byte of block `sid` in place. -/
def setByte (h : CowHeap) (sid : Nat) (idx : Nat) (c : Char) : CowHeap :=
  ⟨h.blocks.set sid ((blockAt h sid).set idx c), h.rc⟩

/-- `char_proxy::operator=(char)`: if the block is shared
(`use_count() > 1`) first clone it with `copy()`, then write
`storage[offset + index] = c` privately; an exclusively owned block is
written in place. -/
def writeAt (s : cow_string) (i : Nat) (c : Char) (h : CowHeap) : cow_string × CowHeap :=
  if 1 < rcAt h s.sid then
    let sh := copy s h
    (sh.1, setByte sh.2 sh.1.sid (sh.1.offset + i) c)
  else
    (s, setByte h s.sid (s.offset + i) c)

/-- The StringSlice invariant of the data model:
`offset + length ≤ buffer.length` (the buffer length being the data length
of the block, excluding the trailing terminator). -/
def SliceInv (h : CowHeap) (s : cow_string) : Prop :=
  s.offset + s.length ≤ (blockAt h s.sid).length

instance (h : CowHeap) (s : cow_string) : Decidable (SliceInv h s) := by
  unfold SliceInv; infer_instance

/-- `cow_string::find(c, pos)` over the heap: the loop
`for i in [pos, length)` reading `storage[offset + i]`. -/
def findChar (h : CowHeap) (s : cow_string) (c : Char) (pos : Nat) : Option Nat :=
  ((List.range s.length).drop pos).find? (fun i => read h s i = c)

/-- `json_reader::parse_string` at the `cow_string` level: skip the opening
quote, search for the closing quote, slice the window out of the source
buffer with `substr` and step past the quote.  `none` models the thrown
`json_exception`. -/
def parse_string_cow (h : CowHeap) (src : cow_string) (pos : Nat) :
    Option ((cow_string × Nat) × CowHeap) :=
  let pos := pos + 1
  match findChar h src '"' pos with
  | none => none
  | some e =>
    let sh := substr src pos (e - pos) h
    some ((sh.1, e + 1), sh.2)

end cow_string

/-! ## List access helper lemmas -/

theorem listGetD_append_left {α : Type} (l1 l2 : List α) (i : Nat) (d : α)
    (h : i < l1.length) : (l1 ++ l2).getD i d = l1.getD i d := by
  simp [List.getD_eq_getElem?_getD, List.getElem?_append, h]

theorem listGetD_append_len {α : Type} (l1 l2 : List α) (k : Nat) (d : α) :
    (l1 ++ l2).getD (l1.length + k) d = l2.getD k d := by
  simp [List.getD_eq_getElem?_getD, List.getElem?_append_right]

theorem listGetD_set_ne {α : Type} (l : List α) (i j : Nat) (a : α) (d : α)
    (h : i ≠ j) : (l.set i a).getD j d = l.getD j d := by
  simp [List.getD_eq_getElem?_getD, List.getElem?_set_ne h]

theorem listGetD_set_eq {α : Type} (l : List α) (i : Nat) (a : α) (d : α)
    (h : i < l.length) : (l.set i a).getD i d = a := by
  simp [List.getD_eq_getElem?_getD, List.getElem?_set_eq_of_lt _ h]

theorem listGetD_snoc {α : Type} (l : List α) (b : α) (d : α) :
    (l ++ [b]).getD l.length d = b := by
  have h0 := listGetD_append_len l [b] 0 d
  simp only [Nat.add_zero] at h0
  simp only [List.getD] at h0 ⊢
  exact h0

/-! ## Claim C1: copy-on-write isolation

Two `cow_string` slices share one buffer exactly when they name the same
block; two live slices holding one block give it a use count of at least
two, which is the hypothesis `2 ≤ rcAt h s1.sid` below. -/

/-- C1 — COW isolation: for every two `cow_string` slices sharing one
underlying block (hence a use count of at least two), an indexed write
through one slice (`char_proxy::operator=`) never changes any byte
observable through the other slice via indexed reads. -/
theorem claim_C1 (h : CowHeap) (s1 s2 : cow_string) (i j : Nat) (c : Char)
    (_hshare : s1.sid = s2.sid) (hvalid : s2.sid < h.blocks.length)
    (hrc : 2 ≤ cow_string.rcAt h s1.sid) :
    cow_string.read (cow_string.writeAt s1 i c h).2 s2 j = cow_string.read h s2 j := by
  have h1 : 1 < cow_string.rcAt h s1.sid := by omega
  simp only [cow_string.writeAt, if_pos h1, cow_string.copy, cow_string.setByte,
    cow_string.read, cow_string.blockAt]
  rw [listGetD_set_ne _ _ _ _ _ (by omega : h.blocks.length ≠ s2.sid)]
  rw [listGetD_append_left _ _ _ _ hvalid]

/-- C1 witness: a block `"ab"` held by two slices (use count 2); writing
`'X'` at index 0 through the first slice leaves the byte the second slice
reads at index 0 unchanged. -/
theorem claim_C1_witness :
    2 ≤ cow_string.rcAt ⟨[['a', 'b']], [2]⟩ 0 ∧
    cow_string.read (cow_string.writeAt ⟨0, 0, 2⟩ 0 'X' ⟨[['a', 'b']], [2]⟩).2 ⟨0, 0, 2⟩ 0 =
      cow_string.read ⟨[['a', 'b']], [2]⟩ ⟨0, 0, 2⟩ 0 :=
  ⟨by decide, claim_C1 ⟨[['a', 'b']], [2]⟩ ⟨0, 0, 2⟩ ⟨0, 0, 2⟩ 0 0 'X' rfl (by decide) (by decide)⟩

/-! ## Claim C4: the StringSlice invariant -/

/-- C4 counterexample: the claim fails as stated.  On the one-byte input
`"n"` the reader's 4-byte literal lookahead (`parse_null` running
`src.substr(pos, 4)` at `pos = 0`) produces a slice with
`offset + length = 4` over a block of length 1: `substr` adjusts the
window with no bounds check, so `offset + length ≤ buffer.length` does not
hold for every slice the code produces. -/
theorem claim_C4_counterexample :
    ¬ cow_string.SliceInv
        (cow_string.substr (cow_string.ofView ['n'] ⟨[], []⟩).1 0 4
          (cow_string.ofView ['n'] ⟨[], []⟩).2).2
        (cow_string.substr (cow_string.ofView ['n'] ⟨[], []⟩).1 0 4
          (cow_string.ofView ['n'] ⟨[], []⟩).2).1 := by
  decide

/-- C4 (amended) — the StringSlice invariant `offset + length ≤
buffer.length` holds for every `cow_string` produced by construction, by
the copy constructor, by the copy-on-write clone (`copy()`), and by the
indexed write (`char_proxy::operator=`); it holds for `substr(off, cnt)`
exactly when the requested window stays inside the source slice
(`off + cnt ≤ s.length`) — the reader's 4- and 5-byte literal lookaheads
satisfy that bound only when at least that many bytes remain before the
end of the input, and violate the invariant otherwise. -/
theorem claim_C4 :
    (∀ (view : List Char) (h : CowHeap),
       cow_string.SliceInv (cow_string.ofView view h).2 (cow_string.ofView view h).1) ∧
    (∀ (s : cow_string) (h : CowHeap), cow_string.SliceInv h s →
       cow_string.SliceInv (cow_string.copyCtor s h).2 (cow_string.copyCtor s h).1) ∧
    (∀ (s : cow_string) (off cnt : Nat) (h : CowHeap), cow_string.SliceInv h s →
       off + cnt ≤ s.length →
       cow_string.SliceInv (cow_string.substr s off cnt h).2
         (cow_string.substr s off cnt h).1) ∧
    (∀ (s : cow_string) (h : CowHeap), cow_string.SliceInv h s →
       cow_string.SliceInv (cow_string.copy s h).2 (cow_string.copy s h).1) ∧
    (∀ (s : cow_string) (i : Nat) (c : Char) (h : CowHeap), cow_string.SliceInv h s →
       cow_string.SliceInv (cow_string.writeAt s i c h).2
         (cow_string.writeAt s i c h).1) := by
  refine ⟨?_, ?_, ?_, ?_, ?_⟩
  · intro view h
    simp only [cow_string.ofView, cow_string.SliceInv, cow_string.blockAt]
    rw [listGetD_snoc]
    omega
  · intro s h hs
    exact hs
  · intro s off cnt h hs hwin
    simp only [cow_string.substr, cow_string.SliceInv, cow_string.blockAt] at hs ⊢
    omega
  · intro s h hs
    simp only [cow_string.copy, cow_string.SliceInv, cow_string.blockAt] at hs ⊢
    rw [listGetD_snoc]
    simp only [List.length_take, List.length_drop]
    omega
  · intro s i c h hs
    simp only [cow_string.SliceInv, cow_string.blockAt] at hs ⊢
    by_cases hrc : 1 < cow_string.rcAt h s.sid
    · simp only [cow_string.writeAt, if_pos hrc, cow_string.copy, cow_string.setByte,
        cow_string.blockAt]
      rw [listGetD_set_eq _ _ _ _ (by simp)]
      rw [listGetD_snoc]
      simp only [List.length_set, List.length_take, List.length_drop]
      omega
    · simp only [cow_string.writeAt, if_neg hrc, cow_string.setByte, cow_string.blockAt]
      by_cases hsid : s.sid < h.blocks.length
      · rw [listGetD_set_eq _ _ _ _ hsid]
        simp only [List.length_set]
        exact hs
      · rw [List.set_eq_of_length_le (by omega)]
        exact hs

/-- C4 witness: constructing from `"ab"` and slicing the in-bounds window
`substr(1, 1)` keeps the invariant. -/
theorem claim_C4_witness :
    cow_string.SliceInv ⟨[['a', 'b']], [1]⟩ ⟨0, 0, 2⟩ ∧ 1 + 1 ≤ (2 : Nat) ∧
    cow_string.SliceInv
      (cow_string.substr ⟨0, 0, 2⟩ 1 1 ⟨[['a', 'b']], [1]⟩).2
      (cow_string.substr ⟨0, 0, 2⟩ 1 1 ⟨[['a', 'b']], [1]⟩).1 :=
  ⟨by decide, by decide,
    claim_C4.2.2.1 ⟨0, 0, 2⟩ 1 1 ⟨[['a', 'b']], [1]⟩ (by decide) (by decide)⟩

/-! ## Claim C5: zero-copy slicing -/

/-- C5 — zero-copy slicing: `substr` returns a slice naming the same block
as its source and allocates nothing (the heap's block store is untouched;
only the shared use count moves), whatever the current sharing count; and
every `String` value `parse_string` produces for a string token is such a
shared view into the source buffer (same block, no new allocation). -/
theorem claim_C5 :
    (∀ (s : cow_string) (off cnt : Nat) (h : CowHeap),
        (cow_string.substr s off cnt h).1.sid = s.sid ∧
        (cow_string.substr s off cnt h).2.blocks = h.blocks) ∧
    (∀ (h : CowHeap) (src : cow_string) (pos : Nat) (out : (cow_string × Nat) × CowHeap),
        cow_string.parse_string_cow h src pos = some out →
        out.1.1.sid = src.sid ∧ out.2.blocks = h.blocks) := by
  constructor
  · intro s off cnt h
    exact ⟨rfl, rfl⟩
  · intro h src pos out hout
    simp only [cow_string.parse_string_cow] at hout
    cases hfind : cow_string.findChar h src '"' (pos + 1) with
    | none => rw [hfind] at hout; cases hout
    | some e =>
      rw [hfind] at hout
      simp only [Option.some.injEq] at hout
      subst hout
      exact ⟨rfl, rfl⟩

/-- C5 witness: parsing the string token of the buffer holding the three
bytes quote-`a`-quote yields the slice `(block 0, offset 1, length 1)` —
the same block as the source, with the block store unchanged. -/
theorem claim_C5_witness :
    cow_string.parse_string_cow ⟨[['"', 'a', '"']], [1]⟩ ⟨0, 0, 3⟩ 0 =
      some ((⟨0, 1, 1⟩, 3), ⟨[['"', 'a', '"']], [2]⟩) ∧
    (⟨0, 1, 1⟩ : cow_string).sid = (⟨0, 0, 3⟩ : cow_string).sid :=
  ⟨by decide,
    (claim_C5.2 ⟨[['"', 'a', '"']], [1]⟩ ⟨0, 0, 3⟩ 0 ((⟨0, 1, 1⟩, 3), ⟨[['"', 'a', '"']], [2]⟩)
      (by decide)).1⟩

/-! ## Claim C3: the sample document -/

set_option maxRecDepth 16000

/-- C3 — parsing `{"a":1,"b":[1,2,3],"c":{"d":true,"e":null},"f":2.5}`
succeeds with an Object whose entries iterate in the sorted key order
`a, b, c, f`, mapping `a` to Integer 1, `b` to the Array of Integers
1, 2, 3, `c` to the Object `{d: Bool true, e: Null}`, and `f` to Float 2.5
(`mkRat 5 2`, the exact value `std::from_chars` produces for `2.5`). -/
theorem claim_C3 :
    parse ("\x7b\"a\":1,\"b\":[1,2,3],\"c\":\x7b\"d\":true,\"e\":null\x7d,\"f\":2.5\x7d".toList) =
      .ok (.obj [("a".toList, .integer 1),
                 ("b".toList, .arr [.integer 1, .integer 2, .integer 3]),
                 ("c".toList, .obj [("d".toList, .bool true), ("e".toList, .null)]),
                 ("f".toList, .float (mkRat 5 2))]) ∧
    (mkRat 5 2 : ℚ) = 2.5 :=
  ⟨rfl, by norm_num [mkRat, Rat.normalize]⟩

/-! ## Claim C8: missing value after the colon -/

/-- C8 — parsing `{"a":}` fails with a parse error and returns no root:
after the colon, `parse_value` dispatches on `'}'` to `parse_number`, the
scanned token is empty, the numeric conversion fails and the reader
throws (`Invalid token ...`). -/
theorem claim_C8 :
    parse ("\x7b\"a\":\x7d".toList) = .error (.invalidToken '}') := rfl

/-! ## Order lemmas for `ltB` (the `std::map` comparator) -/

theorem ltB_irrefl (a : List Char) : ltB a a = false := by
  induction a with
  | nil => rfl
  | cons c t ih => simp [ltB, ih]

theorem ltB_conn (a b : List Char) (hab : ltB a b = false) (hba : ltB b a = false) :
    a = b := by
  induction a generalizing b with
  | nil =>
    cases b with
    | nil => rfl
    | cons d u => simp [ltB] at hab
  | cons c t ih =>
    cases b with
    | nil => simp [ltB] at hba
    | cons d u =>
      simp only [ltB] at hab hba
      by_cases h1 : c.toNat < d.toNat
      · rw [if_pos h1] at hab; cases hab
      · by_cases h2 : d.toNat < c.toNat
        · rw [if_pos h2] at hba; cases hba
        · rw [if_neg h1, if_neg h2] at hab
          rw [if_neg h2, if_neg h1] at hba
          have hcd : c = d := by
            apply Char.ext
            apply UInt32.ext
            simp only [Char.toNat] at h1 h2
            omega
          rw [hcd, ih u hab hba]

/-! ## Claim C6: duplicate keys, last write wins -/

theorem objLookup_cons (a : List Char) (b : Value) (t : List (List Char × Value))
    (key : List Char) :
    objLookup ((a, b) :: t) key = if a = key then some b else objLookup t key := by
  by_cases h : a = key
  · simp [objLookup, List.find?_cons, h]
  · simp [objLookup, List.find?_cons, h]

theorem objLookup_objInsert_self (m : List (List Char × Value)) (k : List Char) (v : Value) :
    objLookup (objInsert m k v) k = some v := by
  induction m with
  | nil => simp [objInsert, objLookup]
  | cons e t ih =>
    obtain ⟨k', v'⟩ := e
    simp only [objInsert]
    by_cases h1 : ltB k k' = true
    · rw [if_pos h1, objLookup_cons]
      simp
    · rw [if_neg h1]
      by_cases h2 : ltB k' k = true
      · have hne : k' ≠ k := by
          intro he
          rw [he, ltB_irrefl] at h2
          cases h2
        rw [if_pos h2, objLookup_cons, if_neg hne]
        exact ih
      · have hk : k' = k :=
          ltB_conn k' k (by simpa using h2) (by simpa using h1)
        rw [if_neg h2, objLookup_cons, if_pos hk]

theorem objLookup_objInsert_other (m : List (List Char × Value)) (k : List Char) (v : Value)
    (k' : List Char) (hne : k' ≠ k) :
    objLookup (objInsert m k v) k' = objLookup m k' := by
  have hne' : k ≠ k' := fun h => hne h.symm
  induction m with
  | nil =>
    simp only [objInsert, objLookup, List.find?_cons, List.find?_nil]
    simp [hne']
  | cons e t ih =>
    obtain ⟨k'', v''⟩ := e
    simp only [objInsert]
    by_cases h1 : ltB k k'' = true
    · rw [if_pos h1, objLookup_cons, if_neg hne']
    · rw [if_neg h1]
      by_cases h2 : ltB k'' k = true
      · rw [if_pos h2, objLookup_cons, objLookup_cons]
        by_cases h3 : k'' = k'
        · rw [if_pos h3, if_pos h3]
        · rw [if_neg h3, if_neg h3, ih]
      · have hk : k'' = k :=
          ltB_conn k'' k (by simpa using h2) (by simpa using h1)
        rw [if_neg h2, objLookup_cons, objLookup_cons, hk]
        rw [if_neg hne', if_neg hne']

/-- C6 — duplicate object keys, last write wins: the object-insertion step
(`obj[key] = node{...}` on `std::map`) maps the inserted key to the new
value, leaves every other key unchanged (so re-inserting an existing key
leaves a single entry holding the last value), and in particular parsing
`{"a":1,"a":2}` yields exactly the one-entry Object `a ↦ Integer 2`. -/
theorem claim_C6 :
    (∀ (m : List (List Char × Value)) (k : List Char) (v : Value),
        objLookup (objInsert m k v) k = some v) ∧
    (∀ (m : List (List Char × Value)) (k : List Char) (v : Value) (k' : List Char),
        k' ≠ k → objLookup (objInsert m k v) k' = objLookup m k') ∧
    parse ("\x7b\"a\":1,\"a\":2\x7d".toList) = .ok (.obj [("a".toList, .integer 2)]) :=
  ⟨objLookup_objInsert_self, fun m k v k' h => objLookup_objInsert_other m k v k' h, rfl⟩

/-- C6 witness: inserting key `a` twice (values 1 then 2) leaves the map
with `a ↦ 2`, and the unrelated key `b` reads the same as before. -/
theorem claim_C6_witness :
    ("b".toList ≠ "a".toList) ∧
    objLookup (objInsert (objInsert [] ("a".toList) (.integer 1)) ("a".toList) (.integer 2))
      ("a".toList) = some (.integer 2) ∧
    objLookup (objInsert [] ("a".toList) (.integer 1)) ("b".toList) = objLookup [] ("b".toList) :=
  ⟨by decide,
    claim_C6.1 (objInsert [] ("a".toList) (.integer 1)) ("a".toList) (.integer 2),
    claim_C6.2.1 [] ("a".toList) (.integer 1) ("b".toList) (by decide)⟩

/-! ## Claim C7: number classification and conversion -/

/-- C7 — number classification and conversion: whenever `parse_number`
succeeds, the result is a Float exactly when the scanned maximal
digit/`.`/`e` token contains `'.'` or `'e'` and an Integer exactly
otherwise; whenever the numeric conversion of the scanned token fails the
reader raises the parse error (`Invalid token ...`); and concretely
`1e10` parses as Float `10^10` while `100` parses as Integer `100`. -/
theorem claim_C7 :
    (∀ (src : List Char) (pos : Nat) (v : Value) (p' : Nat),
        parse_number src pos = .ok (v, p') →
        ((∃ q, v = Value.float q) ↔
            hasDotE ((src.drop pos).take (numRun (src.drop pos))) = true) ∧
        ((∃ n, v = Value.integer n) ↔
            hasDotE ((src.drop pos).take (numRun (src.drop pos))) = false)) ∧
    (∀ (src : List Char) (pos : Nat),
        (hasDotE ((src.drop pos).take (numRun (src.drop pos))) = true ∧
            fromCharsFloat ((src.drop pos).take (numRun (src.drop pos))) = none) ∨
        (hasDotE ((src.drop pos).take (numRun (src.drop pos))) = false ∧
            fromCharsInt ((src.drop pos).take (numRun (src.drop pos))) = none) →
        parse_number src pos =
          .error (.invalidToken (peek src (pos + numRun (src.drop pos))))) ∧
    parse ("1e10".toList) = .ok (.float (mkRat 10000000000 1)) ∧
    parse ("100".toList) = .ok (.integer 100) := by
  refine ⟨?_, ?_, rfl, rfl⟩
  · intro src pos v p' hok
    simp only [parse_number] at hok
    by_cases hd : hasDotE ((src.drop pos).take (numRun (src.drop pos))) = true
    · rw [if_pos hd] at hok
      cases hf : fromCharsFloat ((src.drop pos).take (numRun (src.drop pos))) with
      | none => rw [hf] at hok; cases hok
      | some q =>
        rw [hf] at hok
        simp only [Except.ok.injEq, Prod.mk.injEq] at hok
        obtain ⟨hv, -⟩ := hok
        subst hv
        constructor
        · exact Iff.intro (fun _ => hd) (fun _ => ⟨q, rfl⟩)
        · constructor
          · rintro ⟨n, hn⟩
            exact Value.noConfusion hn
          · intro hfalse
            rw [hd] at hfalse
            cases hfalse
    · rw [if_neg hd] at hok
      cases hf : fromCharsInt ((src.drop pos).take (numRun (src.drop pos))) with
      | none => rw [hf] at hok; cases hok
      | some n =>
        rw [hf] at hok
        simp only [Except.ok.injEq, Prod.mk.injEq] at hok
        obtain ⟨hv, -⟩ := hok
        subst hv
        have hd' : hasDotE ((src.drop pos).take (numRun (src.drop pos))) = false := by
          simpa using hd
        constructor
        · constructor
          · rintro ⟨q, hq⟩
            exact Value.noConfusion hq
          · intro htrue
            rw [hd'] at htrue
            cases htrue
        · exact Iff.intro (fun _ => hd') (fun _ => ⟨n, rfl⟩)
  · intro src pos hfail
    simp only [parse_number]
    rcases hfail with ⟨hd, hf⟩ | ⟨hd, hf⟩
    · rw [if_pos hd, hf]
    · rw [if_neg (by simp [hd]), hf]

/-- C7 witness: on input `100` the conversion succeeds with Integer 100
and the token `100` indeed contains no `'.'` or `'e'`. -/
theorem claim_C7_witness :
    parse_number ("100".toList) 0 = .ok (.integer 100, 3) ∧
    ((∃ n, Value.integer 100 = Value.integer n) ↔
      hasDotE ((("100".toList).drop 0).take (numRun (("100".toList).drop 0))) = false) :=
  ⟨rfl, (claim_C7.1 ("100".toList) 0 (.integer 100) 3 rfl).2⟩

/-! ## Claim C9: lenient at end-of-input -/

/-- C9 — lenient at end-of-input: whenever the loop of `parse_array`
(resp. `parse_object`) reaches a cursor at or past the end of the input,
it exits silently, steps past the absent closing bracket and returns the
container of elements (resp. entries) accumulated so far — no error is
raised; concretely, parsing the unterminated `[1,2` succeeds with the
array `[1, 2]` and parsing `{"a":1` succeeds with the object `{a: 1}`. -/
theorem claim_C9 :
    (∀ (src : List Char) (pos : Nat) (acc : List Value) (fuel : Nat),
        src.length ≤ pos →
        step src (fuel + 1) (.arrayBody pos acc) = .ok (.arr acc, pos + 1)) ∧
    (∀ (src : List Char) (pos : Nat) (acc : List (List Char × Value)) (fuel : Nat),
        src.length ≤ pos →
        step src (fuel + 1) (.objectBody pos acc) = .ok (.obj acc, pos + 1)) ∧
    parse ("[1,2".toList) = .ok (.arr [.integer 1, .integer 2]) ∧
    parse ("\x7b\"a\":1".toList) = .ok (.obj [("a".toList, .integer 1)]) := by
  refine ⟨?_, ?_, rfl, rfl⟩
  · intro src pos acc fuel hend
    simp only [step]
    rw [if_neg (fun hc => absurd hc.1 (by omega))]
  · intro src pos acc fuel hend
    simp only [step]
    rw [if_neg (fun hc => absurd hc.1 (by omega))]

/-- C9 witness: with the two-byte source `ab` and the cursor already at
position 2, the array loop returns the accumulated `[Integer 7]` at once. -/
theorem claim_C9_witness :
    ("ab".toList).length ≤ 2 ∧
    step ("ab".toList) 5 (.arrayBody 2 [.integer 7]) = .ok (.arr [.integer 7], 3) :=
  ⟨by decide, claim_C9.1 ("ab".toList) 2 [.integer 7] 4 (by decide)⟩

/-! ## Claim C10: no whitespace between a key and its colon -/

/-- C10 — whitespace is skipped only before a value, never between a
parsed value and the following structural byte: inside the object loop,
when the key parse returns with the cursor on a whitespace byte (as
happens with one or more whitespace bytes between the key's closing quote
and the `':'`), the `':'` check fails immediately and the reader raises
the `Expected ':'` parse error; concretely `{"a" : 1}` is rejected with
that error at position 4. -/
theorem claim_C10 :
    (∀ (fuel : Nat) (src : List Char) (pos : Nat) (acc : List (List Char × Value))
        (s : List Char) (p' : Nat),
        pos < src.length → peek src pos ≠ '}' →
        step src fuel (.value pos) = .ok (.str s, p') →
        p' < src.length → isSpaceB (peek src p') = true →
        step src (fuel + 1) (.objectBody pos acc) =
          .error (.expectedColon p' (peek src p'))) ∧
    parse ("\x7b\"a\" : 1\x7d".toList) = .error (.expectedColon 4 ' ') := by
  refine ⟨?_, rfl⟩
  intro fuel src pos acc s p' hpos hne hkey hlt hws
  have hcolon : peek src p' ≠ ':' := by
    intro hc
    rw [hc] at hws
    exact absurd hws (by decide)
  simp only [step]
  rw [if_pos ⟨hpos, hne⟩, hkey]
  simp only []
  rw [if_neg (fun hc => hcolon hc.2)]

/-- C10 witness: in `{"a" : 1}` the key parse for `"a"` ends at position
4 on a space, and the object loop rejects with `Expected ':'` there. -/
theorem claim_C10_witness :
    step ("\x7b\"a\" : 1\x7d".toList) 21 (.value 1) = .ok (.str "a".toList, 4) ∧
    isSpaceB (peek ("\x7b\"a\" : 1\x7d".toList) 4) = true ∧
    step ("\x7b\"a\" : 1\x7d".toList) 22 (.objectBody 1 []) =
      .error (.expectedColon 4 (peek ("\x7b\"a\" : 1\x7d".toList) 4)) :=
  ⟨rfl, by decide,
    claim_C10.1 21 ("\x7b\"a\" : 1\x7d".toList) 1 [] ("a".toList) 4 (by decide) (by decide) rfl
      (by decide) (by decide)⟩

/-! ## Round-trip infrastructure: character classes -/

theorem isDigit_toNat (c : Char) (h : c.isDigit = true) :
    48 ≤ c.toNat ∧ c.toNat ≤ 57 := by
  simp only [Char.isDigit, Bool.and_eq_true, decide_eq_true_eq] at h
  exact ⟨h.1, h.2⟩

theorem char_ne_of_toNat_ne (c d : Char) (h : c.toNat ≠ d.toNat) : c ≠ d := by
  intro he
  exact h (congrArg Char.toNat he)

/-- The facts about a decimal digit byte the round-trip proof uses: it is
a number character, not whitespace, and none of the reader's structural
dispatch bytes. -/
theorem digit_char_facts (c : Char) (h : c.isDigit = true) :
    isNumChar c = true ∧ isSpaceB c = false ∧
    c ≠ ']' ∧ c ≠ '}' ∧ c ≠ ',' ∧ c ≠ ':' ∧ c ≠ '"' ∧
    c ≠ 'n' ∧ c ≠ 't' ∧ c ≠ 'f' ∧ c ≠ '[' ∧ c ≠ '{' ∧ c ≠ '-' := by
  obtain ⟨h1, h2⟩ := isDigit_toNat c h
  have hsp : c ≠ ' ' := char_ne_of_toNat_ne _ _ (by simp; omega)
  have htab : c ≠ '\t' := char_ne_of_toNat_ne _ _ (by simp; omega)
  have hnl : c ≠ '\n' := char_ne_of_toNat_ne _ _ (by simp; omega)
  have hvt : c ≠ Char.ofNat 11 := char_ne_of_toNat_ne _ _ (by simp [Char.ofNat]; omega)
  have hff : c ≠ Char.ofNat 12 := char_ne_of_toNat_ne _ _ (by simp [Char.ofNat]; omega)
  have hcr : c ≠ Char.ofNat 13 := char_ne_of_toNat_ne _ _ (by simp [Char.ofNat]; omega)
  refine ⟨by simp [isNumChar, h], by simp [isSpaceB, hsp, htab, hnl, hvt, hff, hcr],
    ?_, ?_, ?_, ?_, ?_, ?_, ?_, ?_, ?_, ?_, ?_⟩
  all_goals exact char_ne_of_toNat_ne _ _ (by simp; omega)

/-! ## Round-trip infrastructure: cursor arithmetic over `pre ++ body ++ rest` -/

theorem peek_at_pre (pre : List Char) (c : Char) (r : List Char) :
    peek (pre ++ c :: r) pre.length = c := by
  have h0 := listGetD_append_len pre (c :: r) 0 NUL
  simp only [Nat.add_zero] at h0
  simpa [peek] using h0

theorem wsRun_cons_of_not_space (c : Char) (t : List Char) (h : isSpaceB c = false) :
    wsRun (c :: t) = 0 := by
  simp [wsRun, h]

theorem skipWs_at_pre (pre : List Char) (c : Char) (r : List Char) (h : isSpaceB c = false) :
    skip_whitespace (pre ++ c :: r) pre.length = pre.length := by
  simp [skip_whitespace, List.drop_left, wsRun_cons_of_not_space c r h]

theorem findIdxC_no_hit (c : Char) (s rest : List Char) (hs : ∀ x ∈ s, x ≠ c) :
    findIdxC c (s ++ c :: rest) = some s.length := by
  induction s with
  | nil => simp [findIdxC]
  | cons x t ih =>
    have hx : x ≠ c := hs x (by simp)
    simp only [List.cons_append, findIdxC, if_neg hx, List.append_eq]
    rw [ih (fun y hy => hs y (by simp [hy]))]
    rfl

theorem numRun_exact (tok rest : List Char)
    (htok : ∀ c ∈ tok, isNumChar c = true)
    (hrest : ∀ c, rest.head? = some c → isNumChar c = false) :
    numRun (tok ++ rest) = tok.length := by
  induction tok with
  | nil =>
    cases rest with
    | nil => rfl
    | cons c t => simp [numRun, hrest c rfl]
  | cons x t ih =>
    have hx : isNumChar x = true := htok x (by simp)
    simp only [List.cons_append, numRun, if_pos hx, List.length_cons, List.append_eq]
    rw [ih (fun c hc => htok c (by simp [hc]))]

theorem takeWhile_isDigit_self (l : List Char) (h : ∀ c ∈ l, c.isDigit = true) :
    l.takeWhile (·.isDigit) = l := by
  induction l with
  | nil => rfl
  | cons c t ih =>
    simp only [List.takeWhile_cons, h c (by simp), if_pos]
    rw [ih (fun x hx => h x (by simp [hx]))]

theorem contains_eq_false_of_all_ne (l : List Char) (c : Char) (h : ∀ x ∈ l, x ≠ c) :
    l.contains c = false := by
  induction l with
  | nil => rfl
  | cons x t ih =>
    simp only [List.contains_cons, Bool.or_eq_false_iff]
    constructor
    · simpa using (h x (by simp)).symm
    · exact ih (fun y hy => h y (by simp [hy]))

/-! ## Round-trip infrastructure: decimal text of naturals -/

theorem digitCh_isDigit (d : Nat) (h : d < 10) : (digitCh d).isDigit = true := by
  interval_cases d <;> decide

theorem digitCh_toNat (d : Nat) (h : d < 10) : (digitCh d).toNat = 48 + d := by
  interval_cases d <;> decide

theorem foldl_digits (ds : List Nat) (hds : ∀ d ∈ ds, d < 10) (a : Nat) :
    List.foldl (fun a c => 10 * a + (c.toNat - 48)) a ((ds.map digitCh).reverse) =
      a * 10 ^ ds.length + Nat.ofDigits 10 ds := by
  induction ds generalizing a with
  | nil => simp
  | cons d t ih =>
    simp only [List.map_cons, List.reverse_cons]
    rw [List.foldl_append, ih (fun x hx => hds x (by simp [hx])) a]
    simp only [List.foldl_cons, List.foldl_nil]
    rw [digitCh_toNat d (hds d (by simp)), Nat.ofDigits_cons]
    have h48 : 48 + d - 48 = d := by omega
    rw [h48, List.length_cons, pow_succ]
    ring

theorem natDecimal_all_digits (n : Nat) : ∀ c ∈ natDecimal n, c.isDigit = true := by
  intro c hc
  by_cases h0 : n = 0
  · subst h0
    simp [natDecimal] at hc
    subst hc
    decide
  · simp only [natDecimal, if_neg h0, List.mem_reverse, List.mem_map] at hc
    obtain ⟨d, hd, rfl⟩ := hc
    exact digitCh_isDigit d (Nat.digits_lt_base (by norm_num) hd)

theorem digitsVal_natDecimal (n : Nat) : digitsVal (natDecimal n) = n := by
  by_cases h0 : n = 0
  · subst h0; decide
  · simp only [natDecimal, if_neg h0, digitsVal]
    rw [foldl_digits _ (fun d hd => Nat.digits_lt_base (by norm_num) hd) 0]
    simp [Nat.ofDigits_digits]

theorem natDecimal_ne_nil (n : Nat) : natDecimal n ≠ [] := by
  by_cases h0 : n = 0
  · subst h0; simp [natDecimal]
  · simp only [natDecimal, if_neg h0]
    simp [Nat.digits_ne_nil_iff_ne_zero.mpr h0]

theorem natDecimal_head_digit (n : Nat) :
    ∃ c cs, natDecimal n = c :: cs ∧ c.isDigit = true := by
  cases hl : natDecimal n with
  | nil => exact absurd hl (natDecimal_ne_nil n)
  | cons c cs =>
    refine ⟨c, cs, rfl, natDecimal_all_digits n c ?_⟩
    rw [hl]
    simp

theorem hasDotE_natDecimal (n : Nat) : hasDotE (natDecimal n) = false := by
  have hall := natDecimal_all_digits n
  simp only [hasDotE, Bool.or_eq_false_iff]
  constructor
  · refine contains_eq_false_of_all_ne _ _ (fun x hx he => ?_)
    have hd := hall x hx
    rw [he] at hd
    exact absurd hd (by decide)
  · refine contains_eq_false_of_all_ne _ _ (fun x hx he => ?_)
    have hd := hall x hx
    rw [he] at hd
    exact absurd hd (by decide)

theorem fromCharsInt_natDecimal (n : Nat) (hn : n < 2 ^ 63) :
    fromCharsInt (natDecimal n) = some (n : Int) := by
  obtain ⟨c, cs, hl, hc⟩ := natDecimal_head_digit n
  have hminus : c ≠ '-' := (digit_char_facts c hc).2.2.2.2.2.2.2.2.2.2.2.2
  have hall : ∀ x ∈ natDecimal n, x.isDigit = true := natDecimal_all_digits n
  have htw : (natDecimal n).takeWhile (·.isDigit) = natDecimal n :=
    takeWhile_isDigit_self _ hall
  have hne : ((c :: cs).head? = some '-') = False := by
    simp [List.head?_cons, hminus]
  rw [hl] at htw
  have hdv : digitsVal (c :: cs) = n := by rw [← hl, digitsVal_natDecimal]
  simp only [fromCharsInt, hl, hne, if_false]
  rw [htw]
  rw [if_neg (by simp)]
  rw [hdv]
  rw [if_neg (by push_cast; omega)]

/-! ## Round-trip infrastructure: the scalar parsers on positioned text -/

theorem parse_null_at (pre rest : List Char) :
    parse_null (pre ++ ("null".toList ++ rest)) pre.length = .ok (.null, pre.length + 4) := by
  simp only [parse_null]
  rw [List.drop_left]
  rw [if_pos (show List.take 4 ("null".toList ++ rest) = "null".toList from
    List.take_left' rfl)]

theorem parse_true_at (pre rest : List Char) :
    parse_true (pre ++ ("true".toList ++ rest)) pre.length =
      .ok (.bool true, pre.length + 4) := by
  simp only [parse_true]
  rw [List.drop_left]
  rw [if_pos (show List.take 4 ("true".toList ++ rest) = "true".toList from
    List.take_left' rfl)]

theorem parse_false_at (pre rest : List Char) :
    parse_false (pre ++ ("false".toList ++ rest)) pre.length =
      .ok (.bool false, pre.length + 5) := by
  simp only [parse_false]
  rw [List.drop_left]
  rw [if_pos (show List.take 5 ("false".toList ++ rest) = "false".toList from
    List.take_left' rfl)]

theorem parse_string_at (pre s rest : List Char) (hs : ∀ c ∈ s, c ≠ '"') :
    parse_string (pre ++ '"' :: (s ++ '"' :: rest)) pre.length =
      .ok (.str s, pre.length + (s.length + 2)) := by
  have hdrop : (pre ++ '"' :: (s ++ '"' :: rest)).drop (pre.length + 1) = s ++ '"' :: rest := by
    rw [show pre ++ '"' :: (s ++ '"' :: rest) = (pre ++ ['"']) ++ (s ++ '"' :: rest) by simp]
    rw [show pre.length + 1 = (pre ++ ['"']).length by simp]
    exact List.drop_left _ _
  simp only [parse_string, strFind]
  rw [hdrop, findIdxC_no_hit '"' s rest hs]
  simp only [Option.map_some']
  rw [show pre.length + 1 + s.length - (pre.length + 1) = s.length by omega]
  rw [List.take_left]
  rw [show pre.length + 1 + s.length + 1 = pre.length + (s.length + 2) by omega]

theorem parse_number_nat_at (pre : List Char) (n : Nat) (rest : List Char)
    (hrest : ∀ c, rest.head? = some c → isNumChar c = false) (hn : n < 2 ^ 63) :
    parse_number (pre ++ (natDecimal n ++ rest)) pre.length =
      .ok (.integer (n : Int), pre.length + (natDecimal n).length) := by
  have hall := natDecimal_all_digits n
  have hnum : ∀ c ∈ natDecimal n, isNumChar c = true :=
    fun c hc => (digit_char_facts c (hall c hc)).1
  simp only [parse_number]
  rw [List.drop_left]
  rw [numRun_exact _ _ hnum hrest]
  rw [List.take_left]
  rw [hasDotE_natDecimal]
  simp only [Bool.false_eq_true, if_false]
  rw [fromCharsInt_natDecimal n hn]

/-! ## Round-trip infrastructure: one-byte dispatch of `parse_value` -/

theorem skipWs_eq_self (src : List Char) (pos : Nat) (h : wsRun (src.drop pos) = 0) :
    skip_whitespace src pos = pos := by
  simp [skip_whitespace, h]

theorem step_value_null (src : List Char) (fuel pos : Nat)
    (hpos : pos < src.length) (hws : wsRun (src.drop pos) = 0)
    (hpk : peek src pos = 'n') :
    step src (fuel + 1) (.value pos) = parse_null src pos := by
  simp only [step, skipWs_eq_self src pos hws]
  rw [if_neg (by omega), hpk]
  rfl

theorem step_value_true (src : List Char) (fuel pos : Nat)
    (hpos : pos < src.length) (hws : wsRun (src.drop pos) = 0)
    (hpk : peek src pos = 't') :
    step src (fuel + 1) (.value pos) = parse_true src pos := by
  simp only [step, skipWs_eq_self src pos hws]
  rw [if_neg (by omega), hpk]
  rfl

theorem step_value_false (src : List Char) (fuel pos : Nat)
    (hpos : pos < src.length) (hws : wsRun (src.drop pos) = 0)
    (hpk : peek src pos = 'f') :
    step src (fuel + 1) (.value pos) = parse_false src pos := by
  simp only [step, skipWs_eq_self src pos hws]
  rw [if_neg (by omega), hpk]
  rfl

theorem step_value_quote (src : List Char) (fuel pos : Nat)
    (hpos : pos < src.length) (hws : wsRun (src.drop pos) = 0)
    (hpk : peek src pos = '"') :
    step src (fuel + 1) (.value pos) = parse_string src pos := by
  simp only [step, skipWs_eq_self src pos hws]
  rw [if_neg (by omega), hpk]
  rfl

theorem step_value_lbrack (src : List Char) (fuel pos : Nat)
    (hpos : pos < src.length) (hws : wsRun (src.drop pos) = 0)
    (hpk : peek src pos = '[') :
    step src (fuel + 1) (.value pos) =
      step src fuel (.arrayBody (skip_whitespace src (pos + 1)) []) := by
  simp only [step, skipWs_eq_self src pos hws]
  rw [if_neg (by omega), hpk]
  rfl

theorem step_value_lbrace (src : List Char) (fuel pos : Nat)
    (hpos : pos < src.length) (hws : wsRun (src.drop pos) = 0)
    (hpk : peek src pos = '{') :
    step src (fuel + 1) (.value pos) =
      step src fuel (.objectBody (skip_whitespace src (pos + 1)) []) := by
  simp only [step, skipWs_eq_self src pos hws]
  rw [if_neg (by omega), hpk]
  rfl

theorem step_value_other (src : List Char) (fuel pos : Nat)
    (hpos : pos < src.length) (hws : wsRun (src.drop pos) = 0)
    (hn : peek src pos ≠ 'n') (ht : peek src pos ≠ 't') (hf : peek src pos ≠ 'f')
    (hq : peek src pos ≠ '"') (hlb : peek src pos ≠ '[') (hlc : peek src pos ≠ '\x7b') :
    step src (fuel + 1) (.value pos) = parse_number src pos := by
  simp only [step, skipWs_eq_self src pos hws]
  rw [if_neg (by omega)]

/-! ## Round-trip infrastructure: heads of written values -/

theorem write_head (v : Value) :
    ∃ c cs, write v = c :: cs ∧ isSpaceB c = false ∧ c ≠ ']' ∧ c ≠ '}' := by
  cases v with
  | null => exact ⟨'n', "ull".toList, by simp [write], by decide, by decide, by decide⟩
  | bool b =>
    cases b with
    | true => exact ⟨'t', "rue".toList, by simp [write], by decide, by decide, by decide⟩
    | false => exact ⟨'f', "alse".toList, by simp [write], by decide, by decide, by decide⟩
  | integer n =>
    by_cases hneg : n < 0
    · refine ⟨'-', natDecimal (-n).toNat, ?_, by decide, by decide, by decide⟩
      simp [write, intDecimal, hneg]
    · obtain ⟨c, cs, hl, hc⟩ := natDecimal_head_digit n.toNat
      obtain ⟨-, hsp, ⟨hrb, hcb, -⟩⟩ := digit_char_facts c hc
      refine ⟨c, cs, ?_, hsp, hrb, hcb⟩
      simp [write, intDecimal, hneg, hl]
  | float q => exact ⟨'0', [], by simp [write], by decide, by decide, by decide⟩
  | str s =>
    exact ⟨'"', s.takeWhile (· ≠ NUL) ++ ['"'], by simp [write], by decide, by decide, by decide⟩
  | arr xs =>
    exact ⟨'[', writeElems xs ++ [']'], by simp [write], by decide, by decide, by decide⟩
  | obj m =>
    exact ⟨'{', writeEntries m ++ ['}'], by simp [write], by decide, by decide, by decide⟩

theorem write_length_pos (v : Value) : 1 ≤ (write v).length := by
  obtain ⟨c, cs, hl, -⟩ := write_head v
  rw [hl]
  simp

/-! ## Round-trip infrastructure: ordered insertion of increasing keys -/

theorem ltB_asymm (a b : List Char) (h : ltB a b = true) : ltB b a = false := by
  induction a generalizing b with
  | nil =>
    cases b with
    | nil => cases h
    | cons d u => rfl
  | cons c t ih =>
    cases b with
    | nil => cases h
    | cons d u =>
      simp only [ltB] at h ⊢
      by_cases h1 : c.toNat < d.toNat
      · rw [if_neg (by omega), if_pos h1]
      · by_cases h2 : d.toNat < c.toNat
        · rw [if_neg h1, if_pos h2] at h
          cases h
        · rw [if_neg h1, if_neg h2] at h
          rw [if_neg h2, if_neg h1]
          exact ih u h

theorem objInsert_append_gt (done : List (List Char × Value)) (k : List Char) (v : Value)
    (hgt : ∀ e ∈ done, ltB e.1 k = true) :
    objInsert done k v = done ++ [(k, v)] := by
  induction done with
  | nil => rfl
  | cons e t ih =>
    obtain ⟨k', v'⟩ := e
    have h1 : ltB k' k = true := hgt (k', v') (by simp)
    have h2 : ltB k k' = false := ltB_asymm k' k h1
    simp only [objInsert, h2, Bool.false_eq_true, if_false, h1, if_true]
    rw [ih (fun e he => hgt e (by simp [he]))]
    simp

/-! ## Round-trip infrastructure: parsing a written key -/

theorem rt_key (pre k rest : List Char) (fuel : Nat) (hk : ∀ c ∈ k, c ≠ '"') :
    step (pre ++ '"' :: (k ++ '"' :: rest)) (fuel + 1) (.value pre.length) =
      .ok (.str k, pre.length + (k.length + 2)) := by
  have hpk : peek (pre ++ '"' :: (k ++ '"' :: rest)) pre.length = '"' := peek_at_pre _ _ _
  have hws : wsRun ((pre ++ '"' :: (k ++ '"' :: rest)).drop pre.length) = 0 := by
    rw [List.drop_left]
    exact wsRun_cons_of_not_space _ _ (by decide)
  have hpos : pre.length < (pre ++ '"' :: (k ++ '"' :: rest)).length := by
    simp
  rw [step_value_quote _ fuel _ hpos hws hpk]
  exact parse_string_at pre k rest hk

/-! ## Round-trip infrastructure: loop-step packaging and small glue -/

theorem headGuard (c : Char) (r : List Char) (h : isNumChar c = false) :
    ∀ x, ((c :: r).head? = some x) → isNumChar x = false := by
  intro x hx
  simp only [List.head?_cons, Option.some.injEq] at hx
  rwa [← hx]

theorem takeWhile_all (p : Char → Bool) (l : List Char) (h : ∀ c ∈ l, p c = true) :
    l.takeWhile p = l := by
  induction l with
  | nil => rfl
  | cons c t ih =>
    simp only [List.takeWhile_cons, h c (by simp), if_pos]
    rw [ih (fun x hx => h x (by simp [hx]))]

theorem wsRun_writeElems (xs : List Value) (c : Char) (r : List Char)
    (hc : isSpaceB c = false) : wsRun (writeElems xs ++ c :: r) = 0 := by
  cases xs with
  | nil =>
    rw [show writeElems [] = [] from by simp [writeElems]]
    exact wsRun_cons_of_not_space c r hc
  | cons x t =>
    obtain ⟨d, ds, hw, hdsp, -, -⟩ := write_head x
    cases t with
    | nil =>
      rw [show writeElems [x] = write x from by simp [writeElems], hw]
      exact wsRun_cons_of_not_space d _ hdsp
    | cons y t' =>
      rw [show writeElems (x :: y :: t') = write x ++ ',' :: writeElems (y :: t') from by
        simp [writeElems], hw]
      exact wsRun_cons_of_not_space d _ hdsp

theorem wsRun_writeEntries (es : List (List Char × Value)) (c : Char) (r : List Char)
    (hc : isSpaceB c = false) : wsRun (writeEntries es ++ c :: r) = 0 := by
  cases es with
  | nil =>
    rw [show writeEntries [] = [] from by simp [writeEntries]]
    exact wsRun_cons_of_not_space c r hc
  | cons e t =>
    obtain ⟨k, v⟩ := e
    cases t with
    | nil =>
      rw [show writeEntries [(k, v)] = '"' :: (k ++ '"' :: ':' :: write v) from by
        simp [writeEntries]]
      exact wsRun_cons_of_not_space '"' _ (by decide)
    | cons e' t' =>
      rw [show writeEntries ((k, v) :: e' :: t') =
          ('"' :: (k ++ '"' :: ':' :: write v)) ++ ',' :: writeEntries (e' :: t') from by
        simp [writeEntries]]
      exact wsRun_cons_of_not_space '"' _ (by decide)

theorem ok_eq_ok (v w : Value) (m m' : Nat) (hv : v = w) (hm : m = m') :
    (.ok (v, m) : Except Err (Value × Nat)) = .ok (w, m') := by
  rw [hv, hm]

theorem step_array_exit (src : List Char) (fuel pos : Nat) (acc : List Value)
    (h : ¬(pos < src.length ∧ peek src pos ≠ ']')) :
    step src (fuel + 1) (.arrayBody pos acc) = .ok (.arr acc, pos + 1) := by
  simp only [step]
  rw [if_neg h]

theorem step_array_cons (src : List Char) (fuel pos : Nat) (acc : List Value)
    (v : Value) (p1 : Nat)
    (hpos : pos < src.length) (hne : peek src pos ≠ ']')
    (hv : step src fuel (.value pos) = .ok (v, p1)) :
    step src (fuel + 1) (.arrayBody pos acc) =
      step src fuel (.arrayBody
        (skip_whitespace src (if p1 < src.length ∧ peek src p1 = ',' then p1 + 1 else p1))
        (acc ++ [v])) := by
  simp only [step]
  rw [if_pos ⟨hpos, hne⟩, hv]

theorem step_object_exit (src : List Char) (fuel pos : Nat)
    (acc : List (List Char × Value))
    (h : ¬(pos < src.length ∧ peek src pos ≠ '}')) :
    step src (fuel + 1) (.objectBody pos acc) = .ok (.obj acc, pos + 1) := by
  simp only [step]
  rw [if_neg h]

theorem step_object_entry (src : List Char) (fuel pos : Nat)
    (acc : List (List Char × Value)) (key : List Char) (p1 : Nat) (v : Value) (p2 : Nat)
    (hpos : pos < src.length) (hne : peek src pos ≠ '}')
    (hk : step src fuel (.value pos) = .ok (.str key, p1))
    (hcolon : p1 < src.length ∧ peek src p1 = ':')
    (hv : step src fuel (.value (p1 + 1)) = .ok (v, p2)) :
    step src (fuel + 1) (.objectBody pos acc) =
      step src fuel (.objectBody
        (skip_whitespace src (if p2 < src.length ∧ peek src p2 = ',' then p2 + 1 else p2))
        (objInsert acc key v)) := by
  simp only [step]
  rw [if_pos ⟨hpos, hne⟩, hk]
  simp only []
  rw [if_pos hcolon, hv]

/-! ## The round-trip theorem (used by claim C2)

`rt_main` packages the three statements of the round-trip induction, bounded
by an explicit size counter `n`: parsing the written text of a benign value
`v`, embedded as `pre ++ (write v ++ rest)` with the cursor at `pre.length`
and any `rest` that cannot extend a number token, succeeds with exactly `v`
and leaves the cursor after the written text; the other two conjuncts are
the loop invariants for the array and object loops over written
elements/entries.  `rt_value` instantiates the first conjunct. -/

theorem value_sizeOf_pos (v : Value) : 1 ≤ sizeOf v := by
  cases v <;> simp <;> omega

theorem list_sizeOf_pos {α : Type} [SizeOf α] (l : List α) : 1 ≤ sizeOf l := by
  cases l <;> simp <;> omega

theorem rt_main (n : Nat) :
    (∀ v : Value, ∀ pre rest : List Char, ∀ fuel : Nat, sizeOf v ≤ n →
      benign v = true →
      (∀ c : Char, rest.head? = some c → isNumChar c = false) →
      (write v).length + 1 ≤ fuel →
      step (pre ++ (write v ++ rest)) fuel (.value pre.length) =
        .ok (v, pre.length + (write v).length)) ∧
    (∀ xs : List Value, ∀ pre rest : List Char, ∀ acc : List Value, ∀ fuel : Nat,
      sizeOf xs ≤ n →
      benignElems xs = true →
      (writeElems xs).length + 2 ≤ fuel →
      step (pre ++ (writeElems xs ++ ']' :: rest)) fuel (.arrayBody pre.length acc) =
        .ok (.arr (acc ++ xs), pre.length + (writeElems xs).length + 1)) ∧
    (∀ es : List (List Char × Value), ∀ pre rest : List Char,
      ∀ done : List (List Char × Value), ∀ fuel : Nat, sizeOf es ≤ n →
      benignEntries es = true →
      (∀ d ∈ done, ∀ e ∈ es, ltB d.1 e.1 = true) →
      (writeEntries es).length + 2 ≤ fuel →
      step (pre ++ (writeEntries es ++ '}' :: rest)) fuel (.objectBody pre.length done) =
        .ok (.obj (done ++ es), pre.length + (writeEntries es).length + 1)) := by
  induction n with
  | zero =>
    refine ⟨?_, ?_, ?_⟩
    · intro v pre rest fuel hsz
      exact absurd hsz (by have := value_sizeOf_pos v; omega)
    · intro xs pre rest acc fuel hsz
      exact absurd hsz (by have := list_sizeOf_pos xs; omega)
    · intro es pre rest done fuel hsz
      exact absurd hsz (by have := list_sizeOf_pos es; omega)
  | succ n ih =>
    obtain ⟨ihV, ihA, ihO⟩ := ih
    refine ⟨?_, ?_, ?_⟩
    · intro v pre rest fuel hsz hben hrest hfuel
      cases fuel with
      | zero => exact absurd hfuel (by omega)
      | succ g =>
        cases v with
        | null =>
          rw [show write Value.null = "null".toList from by simp [write]]
          have hpk : peek (pre ++ ("null".toList ++ rest)) pre.length = 'n' :=
            peek_at_pre pre 'n' ("ull".toList ++ rest)
          have hws : wsRun ((pre ++ ("null".toList ++ rest)).drop pre.length) = 0 := by
            rw [List.drop_left]
            exact wsRun_cons_of_not_space 'n' ("ull".toList ++ rest) (by decide)
          have hpos : pre.length < (pre ++ ("null".toList ++ rest)).length := by
            simp only [List.length_append]
            have h4 : ("null".toList).length = 4 := rfl
            omega
          rw [step_value_null _ g _ hpos hws hpk, parse_null_at pre rest]
          exact ok_eq_ok _ _ _ _ rfl rfl
        | bool b =>
          cases b with
          | true =>
            rw [show write (Value.bool true) = "true".toList from by simp [write]]
            have hpk : peek (pre ++ ("true".toList ++ rest)) pre.length = 't' :=
              peek_at_pre pre 't' ("rue".toList ++ rest)
            have hws : wsRun ((pre ++ ("true".toList ++ rest)).drop pre.length) = 0 := by
              rw [List.drop_left]
              exact wsRun_cons_of_not_space 't' ("rue".toList ++ rest) (by decide)
            have hpos : pre.length < (pre ++ ("true".toList ++ rest)).length := by
              simp only [List.length_append]
              have h4 : ("true".toList).length = 4 := rfl
              omega
            rw [step_value_true _ g _ hpos hws hpk, parse_true_at pre rest]
            exact ok_eq_ok _ _ _ _ rfl rfl
          | false =>
            rw [show write (Value.bool false) = "false".toList from by simp [write]]
            have hpk : peek (pre ++ ("false".toList ++ rest)) pre.length = 'f' :=
              peek_at_pre pre 'f' ("alse".toList ++ rest)
            have hws : wsRun ((pre ++ ("false".toList ++ rest)).drop pre.length) = 0 := by
              rw [List.drop_left]
              exact wsRun_cons_of_not_space 'f' ("alse".toList ++ rest) (by decide)
            have hpos : pre.length < (pre ++ ("false".toList ++ rest)).length := by
              simp only [List.length_append]
              have h5 : ("false".toList).length = 5 := rfl
              omega
            rw [step_value_false _ g _ hpos hws hpk, parse_false_at pre rest]
            exact ok_eq_ok _ _ _ _ rfl rfl
        | integer n =>
          have hb : 0 ≤ n ∧ n < Int.ofNat (2 ^ 63) := by
            simpa [benign, Bool.and_eq_true, decide_eq_true_eq] using hben
          have hw : write (Value.integer n) = natDecimal n.toNat := by
            simp [write, intDecimal, not_lt.mpr hb.1]
          rw [hw]
          obtain ⟨c, cs, hl, hc⟩ := natDecimal_head_digit n.toNat
          obtain ⟨hnum, hsp, hrb, hcb, hcm, hco, hqq, hnn, htt, hff, hlb, hlc, hmi⟩ :=
            digit_char_facts c hc
          have hpk : peek (pre ++ (natDecimal n.toNat ++ rest)) pre.length = c := by
            rw [hl]
            exact peek_at_pre pre c (cs ++ rest)
          have hws : wsRun ((pre ++ (natDecimal n.toNat ++ rest)).drop pre.length) = 0 := by
            rw [List.drop_left, hl]
            exact wsRun_cons_of_not_space c (cs ++ rest) hsp
          have hpos : pre.length < (pre ++ (natDecimal n.toNat ++ rest)).length := by
            simp only [List.length_append]
            have h1 : 1 ≤ (natDecimal n.toNat).length := by rw [hl]; simp
            omega
          rw [step_value_other _ g _ hpos hws (by rw [hpk]; exact hnn) (by rw [hpk]; exact htt)
            (by rw [hpk]; exact hff) (by rw [hpk]; exact hqq) (by rw [hpk]; exact hlb)
            (by rw [hpk]; exact hlc)]
          have hn63 : n.toNat < 2 ^ 63 := by
            have h1 := hb.1
            have h2 := hb.2
            push_cast at h2
            omega
          rw [parse_number_nat_at pre n.toNat rest hrest hn63]
          rw [Int.toNat_of_nonneg hb.1]
        | float q => exact absurd hben (by simp [benign])
        | str s =>
          have hb : ∀ c ∈ s, ¬c = '"' ∧ ¬c = NUL := by
            simpa [benign, List.all_eq_true, Bool.and_eq_true, decide_eq_true_eq] using hben
          have hw : write (Value.str s) = '"' :: (s ++ ['"']) := by
            simp only [write, List.cons.injEq, true_and, List.append_cancel_right_eq]
            exact takeWhile_all _ s (fun c hc => decide_eq_true (hb c hc).2)
          rw [hw]
          rw [show ('"' :: (s ++ ['"'])) ++ rest = '"' :: (s ++ '"' :: rest) from by simp]
          have hpk : peek (pre ++ '"' :: (s ++ '"' :: rest)) pre.length = '"' := peek_at_pre _ _ _
          have hws : wsRun ((pre ++ '"' :: (s ++ '"' :: rest)).drop pre.length) = 0 := by
            rw [List.drop_left]
            exact wsRun_cons_of_not_space '"' _ (by decide)
          have hpos : pre.length < (pre ++ '"' :: (s ++ '"' :: rest)).length := by simp
          rw [step_value_quote _ g _ hpos hws hpk]
          rw [parse_string_at pre s rest (fun c hc => (hb c hc).1)]
          exact ok_eq_ok _ _ _ _ rfl (by
            simp only [List.length_cons, List.length_append, List.length_nil] <;> omega)
        | arr xs =>
          have hbe : benignElems xs = true := by simpa [benign] using hben
          have hw : write (Value.arr xs) = '[' :: (writeElems xs ++ [']']) := by simp [write]
          rw [hw] at hfuel ⊢
          rw [show ('[' :: (writeElems xs ++ [']'])) ++ rest = '[' :: (writeElems xs ++ ']' :: rest)
            from by simp]
          have hpk : peek (pre ++ '[' :: (writeElems xs ++ ']' :: rest)) pre.length = '[' :=
            peek_at_pre _ _ _
          have hws : wsRun ((pre ++ '[' :: (writeElems xs ++ ']' :: rest)).drop pre.length) = 0 := by
            rw [List.drop_left]
            exact wsRun_cons_of_not_space '[' _ (by decide)
          have hpos : pre.length < (pre ++ '[' :: (writeElems xs ++ ']' :: rest)).length := by simp
          rw [step_value_lbrack _ g _ hpos hws hpk]
          have hsk : skip_whitespace (pre ++ '[' :: (writeElems xs ++ ']' :: rest)) (pre.length + 1)
              = pre.length + 1 := by
            apply skipWs_eq_self
            rw [show pre ++ '[' :: (writeElems xs ++ ']' :: rest)
                = (pre ++ ['[']) ++ (writeElems xs ++ ']' :: rest) from by simp]
            rw [show pre.length + 1 = (pre ++ ['[']).length from by simp]
            rw [List.drop_left]
            exact wsRun_writeElems xs ']' rest (by decide)
          rw [hsk]
          rw [show pre ++ '[' :: (writeElems xs ++ ']' :: rest)
              = (pre ++ ['[']) ++ (writeElems xs ++ ']' :: rest) from by simp]
          rw [show pre.length + 1 = (pre ++ ['[']).length from by simp]
          rw [ihA xs (pre ++ ['[']) rest [] g
            (by simp only [Value.arr.sizeOf_spec] at hsz; omega) hbe (by
            simp only [List.length_cons, List.length_append] at hfuel ⊢
            omega)]
          exact ok_eq_ok _ _ _ _ (by simp) (by
            simp only [List.length_cons, List.length_append, List.length_singleton] <;> omega)
        | obj es =>
          have hbe : benignEntries es = true := by simpa [benign] using hben
          have hw : write (Value.obj es) = '{' :: (writeEntries es ++ ['}']) := by simp [write]
          rw [hw] at hfuel ⊢
          rw [show ('{' :: (writeEntries es ++ ['}'])) ++ rest
              = '{' :: (writeEntries es ++ '}' :: rest) from by simp]
          have hpk : peek (pre ++ '{' :: (writeEntries es ++ '}' :: rest)) pre.length = '{' :=
            peek_at_pre _ _ _
          have hws : wsRun ((pre ++ '{' :: (writeEntries es ++ '}' :: rest)).drop pre.length)
              = 0 := by
            rw [List.drop_left]
            exact wsRun_cons_of_not_space '{' _ (by decide)
          have hpos : pre.length < (pre ++ '{' :: (writeEntries es ++ '}' :: rest)).length := by
            simp
          rw [step_value_lbrace _ g _ hpos hws hpk]
          have hsk : skip_whitespace (pre ++ '{' :: (writeEntries es ++ '}' :: rest))
              (pre.length + 1) = pre.length + 1 := by
            apply skipWs_eq_self
            rw [show pre ++ '{' :: (writeEntries es ++ '}' :: rest)
                = (pre ++ ['{']) ++ (writeEntries es ++ '}' :: rest) from by simp]
            rw [show pre.length + 1 = (pre ++ ['{']).length from by simp]
            rw [List.drop_left]
            exact wsRun_writeEntries es '}' rest (by decide)
          rw [hsk]
          rw [show pre ++ '{' :: (writeEntries es ++ '}' :: rest)
              = (pre ++ ['{']) ++ (writeEntries es ++ '}' :: rest) from by simp]
          rw [show pre.length + 1 = (pre ++ ['{']).length from by simp]
          rw [ihO es (pre ++ ['{']) rest [] g
            (by simp only [Value.obj.sizeOf_spec] at hsz; omega)
            hbe (fun d hd => absurd hd (by simp)) (by
            simp only [List.length_cons, List.length_append] at hfuel ⊢
            omega)]
          exact ok_eq_ok _ _ _ _ (by simp) (by
            simp only [List.length_cons, List.length_append, List.length_singleton] <;> omega)
    · intro xs pre rest acc fuel hsz hben hfuel
      cases fuel with
      | zero => exact absurd hfuel (by omega)
      | succ g =>
        cases xs with
        | nil =>
          rw [show writeElems [] = [] from by simp [writeElems], List.nil_append]
          rw [step_array_exit _ g _ acc (fun hcon => hcon.2 (peek_at_pre pre ']' rest))]
          exact ok_eq_ok _ _ _ _ (by simp) (by simp)
        | cons x t =>
          have hbx : benign x = true ∧ benignElems t = true := by
            simpa [benignElems, Bool.and_eq_true] using hben
          obtain ⟨c, cs, hwx, hcsp, hcrb, hccb⟩ := write_head x
          cases t with
          | nil =>
            rw [show writeElems [x] = write x from by simp [writeElems]] at hfuel ⊢
            have hpk : peek (pre ++ (write x ++ ']' :: rest)) pre.length = c := by
              rw [hwx]
              exact peek_at_pre pre c (cs ++ ']' :: rest)
            have hpos : pre.length < (pre ++ (write x ++ ']' :: rest)).length := by
              simp only [List.length_append, List.length_cons] <;> omega
            rw [step_array_cons _ g _ acc x (pre.length + (write x).length) hpos
              (by rw [hpk]; exact hcrb)
              (ihV x pre (']' :: rest) g
                (by simp only [List.cons.sizeOf_spec, List.nil.sizeOf_spec] at hsz; omega)
                hbx.1 (headGuard ']' rest (by decide)) (by omega))]
            have hpk2 : peek (pre ++ (write x ++ ']' :: rest)) (pre.length + (write x).length)
                = ']' := by
              rw [show pre ++ (write x ++ ']' :: rest) = (pre ++ write x) ++ ']' :: rest from by
                simp]
              rw [show pre.length + (write x).length = (pre ++ write x).length from by simp]
              exact peek_at_pre _ _ _
            rw [if_neg (fun hcon => absurd (hcon.2.symm.trans hpk2) (by decide))]
            have hsk2 : skip_whitespace (pre ++ (write x ++ ']' :: rest))
                (pre.length + (write x).length) = pre.length + (write x).length := by
              apply skipWs_eq_self
              rw [show pre ++ (write x ++ ']' :: rest) = (pre ++ write x) ++ ']' :: rest from by
                simp]
              rw [show pre.length + (write x).length = (pre ++ write x).length from by simp]
              rw [List.drop_left]
              exact wsRun_cons_of_not_space ']' rest (by decide)
            rw [hsk2]
            rw [show pre ++ (write x ++ ']' :: rest)
                = (pre ++ write x) ++ (writeElems [] ++ ']' :: rest) from by simp [writeElems]]
            rw [show pre.length + (write x).length = (pre ++ write x).length from by simp]
            rw [ihA [] (pre ++ write x) rest (acc ++ [x]) g
              (by simp only [List.cons.sizeOf_spec, List.nil.sizeOf_spec] at hsz ⊢; omega)
              (by simp [benignElems]) (by
              have hwp := write_length_pos x
              have hE : writeElems ([] : List Value) = [] := by simp [writeElems]
              rw [hE]
              simp only [List.length_nil] <;> omega)]
            exact ok_eq_ok _ _ _ _ (by simp) (by
              have hE : writeElems ([] : List Value) = [] := by simp [writeElems]
              rw [hE]
              simp only [List.length_nil, List.length_append] <;> omega)
          | cons y t' =>
            rw [show writeElems (x :: y :: t') = write x ++ ',' :: writeElems (y :: t') from by
              simp [writeElems]] at hfuel ⊢
            rw [show (write x ++ ',' :: writeElems (y :: t')) ++ ']' :: rest
                = write x ++ ',' :: (writeElems (y :: t') ++ ']' :: rest) from by simp]
            have hpk : peek (pre ++ (write x ++ ',' :: (writeElems (y :: t') ++ ']' :: rest)))
                pre.length = c := by
              rw [hwx]
              exact peek_at_pre pre c _
            have hpos : pre.length
                < (pre ++ (write x ++ ',' :: (writeElems (y :: t') ++ ']' :: rest))).length := by
              simp only [List.length_append, List.length_cons] <;> omega
            rw [step_array_cons _ g _ acc x (pre.length + (write x).length) hpos
              (by rw [hpk]; exact hcrb)
              (ihV x pre (',' :: (writeElems (y :: t') ++ ']' :: rest)) g
                (by simp only [List.cons.sizeOf_spec] at hsz; omega) hbx.1
                (headGuard ',' _ (by decide)) (by
                  have hwp := write_length_pos x
                  simp only [List.length_append, List.length_cons] at hfuel
                  omega))]
            have hpk2 : peek (pre ++ (write x ++ ',' :: (writeElems (y :: t') ++ ']' :: rest)))
                (pre.length + (write x).length) = ',' := by
              rw [show pre ++ (write x ++ ',' :: (writeElems (y :: t') ++ ']' :: rest))
                  = (pre ++ write x) ++ ',' :: (writeElems (y :: t') ++ ']' :: rest) from by simp]
              rw [show pre.length + (write x).length = (pre ++ write x).length from by simp]
              exact peek_at_pre _ _ _
            have hlt2 : pre.length + (write x).length
                < (pre ++ (write x ++ ',' :: (writeElems (y :: t') ++ ']' :: rest))).length := by
              simp only [List.length_append, List.length_cons] <;> omega
            rw [if_pos ⟨hlt2, hpk2⟩]
            have hsk2 : skip_whitespace (pre ++ (write x ++ ',' :: (writeElems (y :: t') ++ ']' :: rest)))
                (pre.length + (write x).length + 1) = pre.length + (write x).length + 1 := by
              apply skipWs_eq_self
              rw [show pre ++ (write x ++ ',' :: (writeElems (y :: t') ++ ']' :: rest))
                  = (pre ++ write x ++ [',']) ++ (writeElems (y :: t') ++ ']' :: rest) from by simp]
              rw [show pre.length + (write x).length + 1 = (pre ++ write x ++ [',']).length from by
                simp only [List.length_append, List.length_cons, List.length_nil] <;> omega]
              rw [List.drop_left]
              exact wsRun_writeElems (y :: t') ']' rest (by decide)
            rw [hsk2]
            rw [show pre ++ (write x ++ ',' :: (writeElems (y :: t') ++ ']' :: rest))
                = (pre ++ write x ++ [',']) ++ (writeElems (y :: t') ++ ']' :: rest) from by simp]
            rw [show pre.length + (write x).length + 1 = (pre ++ write x ++ [',']).length from by
              simp only [List.length_append, List.length_cons, List.length_nil] <;> omega]
            rw [ihA (y :: t') (pre ++ write x ++ [',']) rest (acc ++ [x]) g
              (by simp only [List.cons.sizeOf_spec] at hsz ⊢; omega) hbx.2 (by
              have hwp := write_length_pos x
              simp only [List.length_append, List.length_cons] at hfuel ⊢
              omega)]
            apply ok_eq_ok
            · simp
            · simp only [List.length_append, List.length_cons, List.length_nil,
                List.length_singleton]
              omega
    · intro es pre rest done fuel hsz hben hgt hfuel
      cases fuel with
      | zero => exact absurd hfuel (by omega)
      | succ g =>
        cases es with
        | nil =>
          rw [show writeEntries [] = [] from by simp [writeEntries], List.nil_append]
          rw [step_object_exit _ g _ done (fun hcon => hcon.2 (peek_at_pre pre '}' rest))]
          exact ok_eq_ok _ _ _ _ (by simp) (by simp)
        | cons e t =>
          obtain ⟨k, v⟩ := e
          have hb4 : (∀ c ∈ k, ¬c = '"') ∧ benign v = true ∧
              (∀ e' ∈ t, ltB k e'.1 = true) ∧ benignEntries t = true := by
            simp only [benignEntries, Bool.and_eq_true] at hben
            obtain ⟨⟨⟨hk1, hv1⟩, ht1⟩, ht2⟩ := hben
            refine ⟨fun c hc => ?_, hv1, fun e' he' => List.all_eq_true.mp ht1 e' he', ht2⟩
            exact of_decide_eq_true (List.all_eq_true.mp hk1 c hc)
          cases t with
          | nil =>
            rw [show writeEntries [(k, v)] = '"' :: (k ++ '"' :: ':' :: write v) from by
              simp [writeEntries]] at hfuel ⊢
            rw [show ('"' :: (k ++ '"' :: ':' :: write v)) ++ '}' :: rest
                = '"' :: (k ++ '"' :: ':' :: (write v ++ '}' :: rest)) from by simp]
            have hpos : pre.length
                < (pre ++ '"' :: (k ++ '"' :: ':' :: (write v ++ '}' :: rest))).length := by simp
            have hkey : step (pre ++ '"' :: (k ++ '"' :: ':' :: (write v ++ '}' :: rest))) g
                (.value pre.length) = .ok (.str k, pre.length + (k.length + 2)) := by
              cases g with
              | zero =>
                exfalso
                simp only [List.length_cons, List.length_append] at hfuel
                omega
              | succ g' => exact rt_key pre k (':' :: (write v ++ '}' :: rest)) g' hb4.1
            have hcolon : pre.length + (k.length + 2)
                < (pre ++ '"' :: (k ++ '"' :: ':' :: (write v ++ '}' :: rest))).length ∧
                peek (pre ++ '"' :: (k ++ '"' :: ':' :: (write v ++ '}' :: rest)))
                  (pre.length + (k.length + 2)) = ':' := by
              constructor
              · simp only [List.length_cons, List.length_append] <;> omega
              · rw [show pre ++ '"' :: (k ++ '"' :: ':' :: (write v ++ '}' :: rest))
                    = (pre ++ '"' :: (k ++ ['"'])) ++ ':' :: (write v ++ '}' :: rest) from by simp]
                rw [show pre.length + (k.length + 2) = (pre ++ '"' :: (k ++ ['"'])).length from by
                  simp only [List.length_cons, List.length_append, List.length_nil] <;> omega]
                exact peek_at_pre _ _ _
            have hvalue : step (pre ++ '"' :: (k ++ '"' :: ':' :: (write v ++ '}' :: rest))) g
                (.value (pre.length + (k.length + 2) + 1))
                = .ok (v, pre.length + (k.length + 2) + 1 + (write v).length) := by
              rw [show pre ++ '"' :: (k ++ '"' :: ':' :: (write v ++ '}' :: rest))
                  = (pre ++ '"' :: (k ++ ['"', ':'])) ++ (write v ++ '}' :: rest) from by simp]
              rw [show pre.length + (k.length + 2) + 1 = (pre ++ '"' :: (k ++ ['"', ':'])).length
                from by
                  simp only [List.length_cons, List.length_append, List.length_nil] <;> omega]
              exact ihV v (pre ++ '"' :: (k ++ ['"', ':'])) ('}' :: rest) g
                (by
                  simp only [List.cons.sizeOf_spec, Prod.mk.sizeOf_spec,
                    List.nil.sizeOf_spec] at hsz
                  omega)
                hb4.2.1
                (headGuard '}' rest (by decide)) (by
                  simp only [List.length_cons, List.length_append] at hfuel
                  omega)
            rw [step_object_entry _ g _ done k (pre.length + (k.length + 2)) v
              (pre.length + (k.length + 2) + 1 + (write v).length) hpos
              (by rw [show peek (pre ++ '"' :: (k ++ '"' :: ':' :: (write v ++ '}' :: rest)))
                  pre.length = '"' from peek_at_pre _ _ _]; decide) hkey hcolon hvalue]
            have hpkr : peek (pre ++ '"' :: (k ++ '"' :: ':' :: (write v ++ '}' :: rest)))
                (pre.length + (k.length + 2) + 1 + (write v).length) = '}' := by
              rw [show pre ++ '"' :: (k ++ '"' :: ':' :: (write v ++ '}' :: rest))
                  = (pre ++ '"' :: (k ++ ['"', ':']) ++ write v) ++ '}' :: rest from by simp]
              rw [show pre.length + (k.length + 2) + 1 + (write v).length
                  = (pre ++ '"' :: (k ++ ['"', ':']) ++ write v).length from by
                simp only [List.length_cons, List.length_append, List.length_nil] <;> omega]
              exact peek_at_pre _ _ _
            rw [if_neg (fun hcon => absurd (hcon.2.symm.trans hpkr) (by decide))]
            have hsk : skip_whitespace (pre ++ '"' :: (k ++ '"' :: ':' :: (write v ++ '}' :: rest)))
                (pre.length + (k.length + 2) + 1 + (write v).length)
                = pre.length + (k.length + 2) + 1 + (write v).length := by
              apply skipWs_eq_self
              rw [show pre ++ '"' :: (k ++ '"' :: ':' :: (write v ++ '}' :: rest))
                  = (pre ++ '"' :: (k ++ ['"', ':']) ++ write v) ++ '}' :: rest from by simp]
              rw [show pre.length + (k.length + 2) + 1 + (write v).length
                  = (pre ++ '"' :: (k ++ ['"', ':']) ++ write v).length from by
                simp only [List.length_cons, List.length_append, List.length_nil] <;> omega]
              rw [List.drop_left]
              exact wsRun_cons_of_not_space '}' rest (by decide)
            rw [hsk]
            rw [objInsert_append_gt done k v (fun d hd => hgt d hd (k, v) (by simp))]
            rw [show pre ++ '"' :: (k ++ '"' :: ':' :: (write v ++ '}' :: rest))
                = (pre ++ '"' :: (k ++ ['"', ':']) ++ write v) ++ (writeEntries [] ++ '}' :: rest)
              from by simp [writeEntries]]
            rw [show pre.length + (k.length + 2) + 1 + (write v).length
                = (pre ++ '"' :: (k ++ ['"', ':']) ++ write v).length from by
              simp only [List.length_cons, List.length_append, List.length_nil] <;> omega]
            rw [ihO [] (pre ++ '"' :: (k ++ ['"', ':']) ++ write v) rest
              (done ++ [(k, v)]) g
              (by
                simp only [List.cons.sizeOf_spec, Prod.mk.sizeOf_spec,
                  List.nil.sizeOf_spec] at hsz ⊢
                omega)
              (by simp [benignEntries]) (fun d hd e' he' => absurd he' (by simp))
              (by
                have hE : writeEntries ([] : List (List Char × Value)) = [] := by
                  simp [writeEntries]
                rw [hE]
                simp only [List.length_cons, List.length_append] at hfuel
                simp only [List.length_nil]
                omega)]
            exact ok_eq_ok _ _ _ _ (by simp) (by
              have hE : writeEntries ([] : List (List Char × Value)) = [] := by simp [writeEntries]
              rw [hE]
              simp only [List.length_nil, List.length_append, List.length_cons] <;> omega)
          | cons e' t'' =>
            rw [show writeEntries ((k, v) :: e' :: t'')
                = ('"' :: (k ++ '"' :: ':' :: write v)) ++ ',' :: writeEntries (e' :: t'') from by
              simp [writeEntries]] at hfuel ⊢
            rw [show (('"' :: (k ++ '"' :: ':' :: write v)) ++ ',' :: writeEntries (e' :: t''))
                  ++ '}' :: rest
                = '"' :: (k ++ '"' :: ':' :: (write v
                  ++ ',' :: (writeEntries (e' :: t'') ++ '}' :: rest))) from by simp]
            have hpos : pre.length
                < (pre ++ '"' :: (k ++ '"' :: ':' :: (write v
                  ++ ',' :: (writeEntries (e' :: t'') ++ '}' :: rest)))).length := by simp
            have hkey : step (pre ++ '"' :: (k ++ '"' :: ':' :: (write v
                  ++ ',' :: (writeEntries (e' :: t'') ++ '}' :: rest)))) g
                (.value pre.length) = .ok (.str k, pre.length + (k.length + 2)) := by
              cases g with
              | zero =>
                exfalso
                simp only [List.length_cons, List.length_append] at hfuel
                omega
              | succ g' =>
                exact rt_key pre k (':' :: (write v
                  ++ ',' :: (writeEntries (e' :: t'') ++ '}' :: rest))) g' hb4.1
            have hcolon : pre.length + (k.length + 2)
                < (pre ++ '"' :: (k ++ '"' :: ':' :: (write v
                  ++ ',' :: (writeEntries (e' :: t'') ++ '}' :: rest)))).length ∧
                peek (pre ++ '"' :: (k ++ '"' :: ':' :: (write v
                  ++ ',' :: (writeEntries (e' :: t'') ++ '}' :: rest))))
                  (pre.length + (k.length + 2)) = ':' := by
              constructor
              · simp only [List.length_cons, List.length_append] <;> omega
              · rw [show pre ++ '"' :: (k ++ '"' :: ':' :: (write v
                      ++ ',' :: (writeEntries (e' :: t'') ++ '}' :: rest)))
                    = (pre ++ '"' :: (k ++ ['"'])) ++ ':' :: (write v
                      ++ ',' :: (writeEntries (e' :: t'') ++ '}' :: rest)) from by simp]
                rw [show pre.length + (k.length + 2) = (pre ++ '"' :: (k ++ ['"'])).length from by
                  simp only [List.length_cons, List.length_append, List.length_nil] <;> omega]
                exact peek_at_pre _ _ _
            have hvalue : step (pre ++ '"' :: (k ++ '"' :: ':' :: (write v
                  ++ ',' :: (writeEntries (e' :: t'') ++ '}' :: rest)))) g
                (.value (pre.length + (k.length + 2) + 1))
                = .ok (v, pre.length + (k.length + 2) + 1 + (write v).length) := by
              rw [show pre ++ '"' :: (k ++ '"' :: ':' :: (write v
                    ++ ',' :: (writeEntries (e' :: t'') ++ '}' :: rest)))
                  = (pre ++ '"' :: (k ++ ['"', ':'])) ++ (write v
                    ++ ',' :: (writeEntries (e' :: t'') ++ '}' :: rest)) from by simp]
              rw [show pre.length + (k.length + 2) + 1
                  = (pre ++ '"' :: (k ++ ['"', ':'])).length from by
                simp only [List.length_cons, List.length_append, List.length_nil] <;> omega]
              exact ihV v (pre ++ '"' :: (k ++ ['"', ':']))
                (',' :: (writeEntries (e' :: t'') ++ '}' :: rest)) g
                (by simp only [List.cons.sizeOf_spec, Prod.mk.sizeOf_spec] at hsz; omega)
                hb4.2.1
                (headGuard ',' _ (by decide)) (by
                  simp only [List.length_cons, List.length_append] at hfuel
                  omega)
            rw [step_object_entry _ g _ done k (pre.length + (k.length + 2)) v
              (pre.length + (k.length + 2) + 1 + (write v).length) hpos
              (by rw [show peek (pre ++ '"' :: (k ++ '"' :: ':' :: (write v
                  ++ ',' :: (writeEntries (e' :: t'') ++ '}' :: rest))))
                  pre.length = '"' from peek_at_pre _ _ _]; decide) hkey hcolon hvalue]
            have hpkr : peek (pre ++ '"' :: (k ++ '"' :: ':' :: (write v
                  ++ ',' :: (writeEntries (e' :: t'') ++ '}' :: rest))))
                (pre.length + (k.length + 2) + 1 + (write v).length) = ',' := by
              rw [show pre ++ '"' :: (k ++ '"' :: ':' :: (write v
                    ++ ',' :: (writeEntries (e' :: t'') ++ '}' :: rest)))
                  = (pre ++ '"' :: (k ++ ['"', ':']) ++ write v)
                    ++ ',' :: (writeEntries (e' :: t'') ++ '}' :: rest) from by simp]
              rw [show pre.length + (k.length + 2) + 1 + (write v).length
                  = (pre ++ '"' :: (k ++ ['"', ':']) ++ write v).length from by
                simp only [List.length_cons, List.length_append, List.length_nil] <;> omega]
              exact peek_at_pre _ _ _
            have hlt : pre.length + (k.length + 2) + 1 + (write v).length
                < (pre ++ '"' :: (k ++ '"' :: ':' :: (write v
                  ++ ',' :: (writeEntries (e' :: t'') ++ '}' :: rest)))).length := by
              simp only [List.length_cons, List.length_append] <;> omega
            rw [if_pos ⟨hlt, hpkr⟩]
            have hsk : skip_whitespace (pre ++ '"' :: (k ++ '"' :: ':' :: (write v
                  ++ ',' :: (writeEntries (e' :: t'') ++ '}' :: rest))))
                (pre.length + (k.length + 2) + 1 + (write v).length + 1)
                = pre.length + (k.length + 2) + 1 + (write v).length + 1 := by
              apply skipWs_eq_self
              rw [show pre ++ '"' :: (k ++ '"' :: ':' :: (write v
                    ++ ',' :: (writeEntries (e' :: t'') ++ '}' :: rest)))
                  = (pre ++ '"' :: (k ++ ['"', ':']) ++ write v ++ [','])
                    ++ (writeEntries (e' :: t'') ++ '}' :: rest) from by simp]
              rw [show pre.length + (k.length + 2) + 1 + (write v).length + 1
                  = (pre ++ '"' :: (k ++ ['"', ':']) ++ write v ++ [',']).length from by
                simp only [List.length_cons, List.length_append, List.length_nil] <;> omega]
              rw [List.drop_left]
              exact wsRun_writeEntries (e' :: t'') '}' rest (by decide)
            rw [hsk]
            rw [objInsert_append_gt done k v (fun d hd => hgt d hd (k, v) (by simp))]
            rw [show pre ++ '"' :: (k ++ '"' :: ':' :: (write v
                  ++ ',' :: (writeEntries (e' :: t'') ++ '}' :: rest)))
                = (pre ++ '"' :: (k ++ ['"', ':']) ++ write v ++ [','])
                  ++ (writeEntries (e' :: t'') ++ '}' :: rest) from by simp]
            rw [show pre.length + (k.length + 2) + 1 + (write v).length + 1
                = (pre ++ '"' :: (k ++ ['"', ':']) ++ write v ++ [',']).length from by
              simp only [List.length_cons, List.length_append, List.length_nil] <;> omega]
            rw [ihO (e' :: t'') (pre ++ '"' :: (k ++ ['"', ':']) ++ write v ++ [','])
              rest (done ++ [(k, v)]) g
              (by simp only [List.cons.sizeOf_spec, Prod.mk.sizeOf_spec] at hsz ⊢; omega)
              hb4.2.2.2
              (by
                intro d hd e he
                rcases List.mem_append.mp hd with hdl | hdr
                · exact hgt d hdl e (List.mem_cons_of_mem _ he)
                · have hdkv : d = (k, v) := by simpa using hdr
                  rw [hdkv]
                  exact hb4.2.2.1 e he)
              (by
                simp only [List.length_cons, List.length_append] at hfuel
                omega)]
            apply ok_eq_ok
            · simp
            · simp only [List.length_append, List.length_cons, List.length_nil]
              omega

theorem rt_value (v : Value) (pre rest : List Char) (fuel : Nat)
    (hben : benign v = true)
    (hrest : ∀ c, rest.head? = some c → isNumChar c = false)
    (hfuel : (write v).length + 1 ≤ fuel) :
    step (pre ++ (write v ++ rest)) fuel (.value pre.length) =
      .ok (v, pre.length + (write v).length) :=
  (rt_main (sizeOf v)).1 v pre rest fuel (Nat.le_refl _) hben hrest hfuel

/-- Claim C2, counterexample: the round-trip does not hold for every `Value`
tree.  For `v = Integer (-1)` the writer emits `-1`, but the reader has no
sign support (`-` is not a number character, so the scanned token is empty
and the numeric conversion fails): `parse (write v)` raises the parse error
`Invalid token '-'` instead of returning a tree with the same scalar value. -/
theorem claim_C2_counterexample :
    write (Value.integer (-1)) = '-' :: natDecimal 1 ∧
    parse (write (Value.integer (-1))) = .error (.invalidToken '-') := by
  have hw : write (Value.integer (-1)) = '-' :: natDecimal 1 := by
    simp [write, intDecimal]
  refine ⟨hw, ?_⟩
  have hrun : numRun ('-' :: natDecimal 1) = 0 := by
    simp only [numRun]
    rw [if_neg (by decide)]
  have hpn : parse_number ('-' :: natDecimal 1) 0 = .error (.invalidToken '-') := by
    simp only [parse_number, List.drop_zero]
    rw [hrun]
    rfl
  simp only [hw, parse, parse_value]
  rw [show 2 * ('-' :: natDecimal 1).length + 4
      = (2 * ('-' :: natDecimal 1).length + 3) + 1 from by omega]
  rw [step_value_other ('-' :: natDecimal 1) (2 * ('-' :: natDecimal 1).length + 3) 0
    (by simp)
    (by exact wsRun_cons_of_not_space '-' (natDecimal 1) (by decide))
    (by decide) (by decide) (by decide) (by decide) (by decide) (by decide)]
  rw [hpn]
  rfl

/-- Claim C2 (amended): the round-trip `parse (write v) = v` holds for every
benign tree `v`: integers non-negative and below `2^63`, no `Float` leaves
(the writer's float formatting is lossy), string values free of `"` and of
the terminator byte, keys free of `"`, and every object strictly sorted by
byte-wise key order (the `std::map` invariant, which holds for every object
the reader itself produces).  On such trees the written text re-parses to
exactly the same tree, so scalar values and nesting shape are preserved and
object keys stay in sorted byte-wise order. -/
theorem claim_C2 (v : Value) (hben : benign v = true) :
    parse (write v) = .ok v := by
  have h := rt_value v [] [] (2 * (write v).length + 4) hben
    (by intro c hc; simp at hc) (by omega)
  simp only [List.nil_append, List.append_nil, List.length_nil, Nat.zero_add] at h
  simp only [parse, parse_value]
  rw [h]
  rfl

/-- Witness for C2: a concrete benign object (nested array, string, null,
two sorted keys) round-trips exactly. -/
theorem claim_C2_witness :
    benign (Value.obj [("a".toList, Value.integer 1),
      ("b".toList, Value.arr [Value.str "x".toList, Value.null])]) = true ∧
    parse (write (Value.obj [("a".toList, Value.integer 1),
      ("b".toList, Value.arr [Value.str "x".toList, Value.null])]))
      = .ok (Value.obj [("a".toList, Value.integer 1),
      ("b".toList, Value.arr [Value.str "x".toList, Value.null])]) :=
  ⟨by simp only [benign, benignElems, benignEntries]; decide,
   claim_C2 _ (by simp only [benign, benignElems, benignEntries]; decide)⟩

end JsonModel
